import Mathlib

/-!
The file-backed document store of `main.go` (go-database)

A shallow embedding of the storage driver (`New`, `Write`, `Read`, `ReadAll`,
`Delete`, `getOrCreateMutex`, `stat`) together with the parts of the Go
standard library it calls (`path/filepath`, `os`, `io/ioutil`), followed by
theorems about the driver.

Conventions.
* A Go `string` and a Go `[]byte` are both immutable byte sequences; both are
  modelled as `List Char`, so the conversion `string(b)` is the identity.
* The filesystem is a tree of directories, regular files and special files
  (objects that are neither, such as sockets); there are no symbolic links
  and no permissions.  Path strings are resolved against the working
  directory of the process.  Every path the driver hands to the operating
  system is a `filepath.Clean`ed path followed by a suffix, and for those
  lexical resolution agrees with the kernel's.
* Execution is sequential: a call runs to completion before the next starts,
  so `Lock` never blocks; lock acquisitions are recorded in a log.
-/

namespace GoDatabase

/-- A Go string (also used for byte slices). -/
abbrev Str := List Char

/-! ## `path/filepath` -/

/-- Put a byte in front of the first piece of a path. -/
def consHead (ch : Char) : List Str → List Str
  | [] => [[ch]]
  | h :: t => (ch :: h) :: t

/-- The separator-delimited pieces of a path, as `strings.Split(path, "/")`. -/
def splitSlash : Str → List Str
  | [] => [[]]
  | ch :: cs => if ch = '/' then [] :: splitSlash cs else consHead ch (splitSlash cs)

/-- The pieces put back together with single separators, as `strings.Join(elem, "/")`. -/
def joinSlash : List Str → Str
  | [] => []
  | [a] => a
  | a :: b :: rest => a ++ '/' :: joinSlash (b :: rest)

/-- The path element `.`. -/
def dot : Str := ['.']

/-- The path element `..`. -/
def dotdot : Str := ['.', '.']

/-- A path begins at the filesystem root when its first byte is the separator. -/
def isRooted (path : Str) : Bool := path.head? = some '/'

/-- One step of `filepath.Clean`: `stk` holds the elements kept so far, last one first.
Empty elements and `.` are dropped; `..` removes the preceding element when there is one
that is not itself `..`, is dropped at the root of a rooted path, and is kept otherwise. -/
def cleanStep (rooted : Bool) (stk : List Str) (c : Str) : List Str :=
  if c = [] ∨ c = dot then stk
  else if c = dotdot then
    match stk with
    | [] => if rooted then [] else [dotdot]
    | t :: rest => if t = dotdot then dotdot :: t :: rest else rest
  else c :: stk

/-- The text of a cleaned path from its elements: a rooted path starts with the separator,
an empty relative path is `.`. -/
def render (rooted : Bool) (comps : List Str) : Str :=
  if rooted then '/' :: joinSlash comps
  else if comps = [] then dot else joinSlash comps

/-- The function `filepath.Clean`: the shortest path name equivalent to `path` by purely
lexical processing. -/
def Clean (path : Str) : Str :=
  if path = [] then dot
  else render (isRooted path) ((splitSlash path).foldl (cleanStep (isRooted path)) []).reverse

/-- The function `filepath.Join`: leading empty elements are ignored, the rest is joined
with separators and cleaned; the result is empty when every element is. -/
def Join (elem : List Str) : Str :=
  match elem.dropWhile (fun e => decide (e = [])) with
  | [] => []
  | es => Clean (joinSlash es)

/-! ## The filesystem (`os`, `io/ioutil`) -/

/-- Error numbers reported by the operating system. -/
inductive Errno where
  | ENOENT | ENOTDIR | EISDIR | EEXIST | EINVAL | EBUSY | ENOTEMPTY | EACCES | ENOSPC | EIO
  | ENXIO_
  deriving DecidableEq, Repr

/-- A filesystem object: a regular file with its content, a directory with its entries, or
a special file, an object that is neither (a socket), which `os.Stat` reports with a mode
that is neither `IsDir` nor `IsRegular` and which cannot be opened: `open` fails with
`ENXIO`.  Among entries of one name the first is the one the directory resolves the name to. -/
inductive Node where
  | file (data : Str)
  | dir (entries : List (Str × Node))
  | special

/-- The entries of a directory. -/
abbrev Entries := List (Str × Node)

/-- The filesystem as a process sees it: the entries of the root directory and the
working directory, given by its elements from the root. -/
structure FS where
  root : Entries
  cwd : List Str

/-- The mode bits the driver looks at, `fi.Mode().IsDir()` and `fi.Mode().IsRegular()`. -/
structure FileMode where
  isDir : Bool
  isRegular : Bool
  deriving DecidableEq, Repr

/-- The part of `os.FileInfo` the driver looks at. -/
structure FileInfo where
  name : Str
  mode : FileMode
  deriving DecidableEq, Repr

/-- The object a directory resolves a name to. -/
def entryGet : Entries → Str → Option Node
  | [], _ => none
  | (k, v) :: es, n => if k = n then some v else entryGet es n

/-- Bind a name in a directory: an existing entry is replaced in place, a new one is added
at the end. -/
def entrySet : Entries → Str → Node → Entries
  | [], n, v => [(n, v)]
  | (k, x) :: es, n, v => if k = n then (k, v) :: es else (k, x) :: entrySet es n v

/-- Remove a name from a directory. -/
def entryDel (es : Entries) (n : Str) : Entries :=
  es.filter (fun e => decide (e.1 ≠ n))

/-- The absolute location a path string denotes: its elements from the root, with `.` and
empty elements dropped and `..` stepping to the parent (the root is its own parent);
a relative path starts from the working directory. -/
def resolve (cwd : List Str) (path : Str) : List Str :=
  ((splitSlash path).foldl (cleanStep true)
    (if isRooted path then [] else cwd.foldl (cleanStep true) [])).reverse

/-- Follow a location down from a directory.  A missing element is `ENOENT`, an element
below a regular or special file is `ENOTDIR`. -/
def walk : Entries → List Str → Except Errno Node
  | es, [] => .ok (.dir es)
  | es, c :: cs =>
    match entryGet es c with
    | none => .error .ENOENT
    | some (.file data) => if cs = [] then .ok (.file data) else .error .ENOTDIR
    | some .special => if cs = [] then .ok .special else .error .ENOTDIR
    | some (.dir sub) => walk sub cs

/-- Change the entry at a location: `f` is given the current entry (if any) and returns the
new one (`none` to remove it) or an error.  The directory holding the entry must exist.
The root itself has no entry and cannot be altered. -/
def alter (f : Option Node → Except Errno (Option Node)) : Entries → List Str → Except Errno Entries
  | _, [] => .error .EBUSY
  | es, [c] =>
    match f (entryGet es c) with
    | .error e => .error e
    | .ok none => .ok (entryDel es c)
    | .ok (some n) => .ok (entrySet es c n)
  | es, c :: c' :: cs =>
    match entryGet es c with
    | none => .error .ENOENT
    | some (.file _) => .error .ENOTDIR
    | some .special => .error .ENOTDIR
    | some (.dir sub) =>
      match alter f sub (c' :: cs) with
      | .error e => .error e
      | .ok sub' => .ok (entrySet es c (.dir sub'))

/-- Create the directory at a location together with every missing parent. -/
def mkdirAllAt : Entries → List Str → Except Errno Entries
  | es, [] => .ok es
  | es, c :: cs =>
    match entryGet es c with
    | none =>
      match mkdirAllAt [] cs with
      | .error e => .error e
      | .ok sub => .ok (entrySet es c (.dir sub))
    | some (.file _) => .error .ENOTDIR
    | some .special => .error .ENOTDIR
    | some (.dir sub) =>
      match mkdirAllAt sub cs with
      | .error e => .error e
      | .ok sub' => .ok (entrySet es c (.dir sub'))

/-- The object a path string names. The empty path names nothing. -/
def lookup (fs : FS) (path : Str) : Except Errno Node :=
  if path = [] then .error .ENOENT else walk fs.root (resolve fs.cwd path)

/-- The mode of a filesystem object. -/
def Node.mode : Node → FileMode
  | .file _ => { isDir := false, isRegular := true }
  | .dir _ => { isDir := true, isRegular := false }
  | .special => { isDir := false, isRegular := false }

/-- The function `os.Stat`. -/
def osStat (fs : FS) (path : Str) : Except Errno FileInfo :=
  match lookup fs path with
  | .error e => .error e
  | .ok n => .ok { name := (splitSlash path).getLastD [], mode := n.mode }

/-- The content of a regular file found by a lookup. -/
def fileOf : Except Errno Node → Option Str
  | .ok (.file data) => some data
  | _ => none

/-- The content of the regular file a path names, if it names one. -/
def fileAt (fs : FS) (path : Str) : Option Str := fileOf (lookup fs path)

/-- The function `os.MkdirAll`.  An injected fault makes the call fail before it creates
anything. -/
def mkdirAll (fault : Option Errno) (fs : FS) (path : Str) : Option Errno × FS :=
  match fault with
  | some e => (some e, fs)
  | none =>
    if path = [] then (some .ENOENT, fs)
    else match mkdirAllAt fs.root (resolve fs.cwd path) with
      | .error e => (some e, fs)
      | .ok r => (none, { fs with root := r })

/-- Ways in which writing a file can be made to fail by the environment. -/
inductive WriteFault where
  | openFails (e : Errno)
  | shortWrite (n : Nat) (e : Errno)

/-- What opening a file for writing (creating or truncating it) and writing the data makes
of a directory entry: a directory cannot be opened for writing, a special file cannot be
opened. -/
def putEntry (data : Str) : Option Node → Except Errno (Option Node)
  | some (.dir _) => .error .EISDIR
  | some .special => .error .ENXIO_
  | _ => .ok (some (.file data))

/-- Store a regular file at a location, replacing a regular file already there. -/
def putFile (data : Str) (root : Entries) (abs : List Str) : Except Errno Entries :=
  match abs with
  | [] => .error .EISDIR
  | _ => alter (putEntry data) root abs

/-- The function `ioutil.WriteFile`: create or truncate the file, then write the data.
With the fault `openFails` nothing is changed; with `shortWrite n` the file is left holding
the first `n` bytes of the data. -/
def writeFile (fault : Option WriteFault) (fs : FS) (path : Str) (data : Str) : Option Errno × FS :=
  if path = [] then (some .ENOENT, fs)
  else match putFile data fs.root (resolve fs.cwd path), fault with
    | .error e, _ => (some e, fs)
    | .ok r, none => (none, { fs with root := r })
    | .ok _, some (.openFails e) => (some e, fs)
    | .ok _, some (.shortWrite n e) =>
      match putFile (data.take n) fs.root (resolve fs.cwd path) with
      | .error e' => (some e', fs)
      | .ok r => (some e, { fs with root := r })

/-- The function `ioutil.ReadFile`. -/
def readFile (fs : FS) (path : Str) : Except Errno Str :=
  match lookup fs path with
  | .error e => .error e
  | .ok (.file data) => .ok data
  | .ok (.dir _) => .error .EISDIR
  | .ok .special => .error .ENXIO_

/-- Byte-wise lexicographic order on strings, the order of Go's `<=` on strings. -/
def strLe : Str → Str → Bool
  | [], _ => true
  | _ :: _, [] => false
  | a :: as, b :: bs => if a.toNat < b.toNat then true else if b.toNat < a.toNat then false else strLe as bs

/-- Insert an entry into a list of directory entries sorted by name. -/
def insertByName (fi : FileInfo) : List FileInfo → List FileInfo
  | [] => [fi]
  | x :: xs => if strLe fi.name x.name then fi :: x :: xs else x :: insertByName fi xs

/-- Sort directory entries by name. -/
def sortByName : List FileInfo → List FileInfo
  | [] => []
  | x :: xs => insertByName x (sortByName xs)

/-- The function `ioutil.ReadDir`: the entries of a directory, sorted by file name. -/
def readDir (fs : FS) (path : Str) : Except Errno (List FileInfo) :=
  match lookup fs path with
  | .error e => .error e
  | .ok (.file _) => .error .ENOTDIR
  | .ok .special => .error .ENOTDIR
  | .ok (.dir es) => .ok (sortByName (es.map (fun e => { name := e.1, mode := e.2.mode })))

/-- What renaming the object `n` onto a directory entry makes of the entry: a directory
cannot replace a regular or special file. -/
def placeEntry (n : Node) : Option Node → Except Errno (Option Node)
  | some (.file _) =>
    match n with
    | .dir _ => .error .ENOTDIR
    | _ => .ok (some n)
  | some .special =>
    match n with
    | .dir _ => .error .ENOTDIR
    | _ => .ok (some n)
  | _ => .ok (some n)

/-- Move the object `n` found at location `a` to location `b`. -/
def moveNode (n : Node) (root : Entries) (a b : List Str) : Except Errno Entries :=
  match alter (placeEntry n) root b with
  | .error e => .error e
  | .ok r => alter (fun _ => .ok none) r a

/-- The function `os.Rename`.  Go refuses to rename onto an existing directory; otherwise
the object is moved in one step, replacing a regular file at the new name.  A directory
cannot be moved below itself.  An injected fault makes the call fail with nothing changed. -/
def rename (fault : Option Errno) (fs : FS) (oldname newname : Str) : Option Errno × FS :=
  match fault with
  | some e => (some e, fs)
  | none =>
    match lookup fs oldname with
    | .error e => (some e, fs)
    | .ok n =>
      match lookup fs newname with
      | .ok (.dir _) => (some .EEXIST, fs)
      | _ =>
        let a := resolve fs.cwd oldname
        let b := resolve fs.cwd newname
        if newname = [] then (some .ENOENT, fs)
        else if a = b then (none, fs)
        else if n.mode.isDir && a.isPrefixOf b then (some .EINVAL, fs)
        else match moveNode n fs.root a b with
          | .error e => (some e, fs)
          | .ok r => (none, { fs with root := r })

/-- The helper `endsWithDot` of package `os`: the final element of the path is `.`. -/
def endsWithDot (path : Str) : Bool :=
  path = dot || path.reverse.take 2 = ['.', '/']

/-- The function `os.RemoveAll`: remove the path and everything below it.  A path that does
not exist is not an error.  A path ending in `.` is refused.  The root directory, and a
path ending in `..`, cannot be unlinked: their content is removed and an error returned. -/
def removeAll (fs : FS) (path : Str) : Option Errno × FS :=
  if path = [] then (none, fs)
  else if endsWithDot path then (some .EINVAL, fs)
  else
    let abs := resolve fs.cwd path
    if abs = [] then (some .EBUSY, { fs with root := [] })
    else if (splitSlash path).getLastD [] = dotdot then
      match walk fs.root abs with
      | .error .ENOENT => (none, fs)
      | .error e => (some e, fs)
      | .ok _ =>
        match alter (fun _ => .ok (some (.dir []))) fs.root abs with
        | .error e => (some e, fs)
        | .ok r => (some .ENOTEMPTY, { fs with root := r })
    else match alter (fun _ => .ok none) fs.root abs with
      | .ok r => (none, { fs with root := r })
      | .error .ENOENT => (none, fs)
      | .error e => (some e, fs)

/-- The function `os.IsNotExist` on the error result of a system call. -/
def isNotExist {α : Type} : Except Errno α → Bool
  | .error .ENOENT => true
  | _ => false

/-! ## The driver (`main.go`) -/

/-- A lock: the driver's own `mutex` field, which guards the registry, or one of the
per-collection locks, identified by the order of their allocation. -/
inductive Mutex where
  | registry
  | collection (id : Nat)
  deriving DecidableEq, Repr

/-- An operation on a lock. -/
inductive LockEvent where
  | lock (m : Mutex)
  | unlock (m : Mutex)
  deriving DecidableEq, Repr

/-- What a call runs in: the filesystem, the number of collection locks allocated so far
(`&sync.Mutex{}` yields a lock different from all earlier ones), and the log of lock
operations in the order they happened. -/
structure World where
  fs : FS
  nextMutex : Nat
  lockLog : List LockEvent

/-- The method `Lock` of `sync.Mutex`. -/
def World.lock (w : World) (m : Mutex) : World :=
  { w with lockLog := w.lockLog ++ [.lock m] }

/-- The method `Unlock` of `sync.Mutex`. -/
def World.unlock (w : World) (m : Mutex) : World :=
  { w with lockLog := w.lockLog ++ [.unlock m] }

/-- The struct `Driver`: the map `mutexes` from collection names to locks and the root
directory `dir`.  The field `mutex` appears as `Mutex.registry`; the logger has no
influence on results and is left out. -/
structure Driver where
  mutexes : List (Str × Mutex)
  dir : Str
  deriving DecidableEq

/-- A map lookup `m, ok := d.mutexes[collection]`. -/
def mapGet : List (Str × Mutex) → Str → Option Mutex
  | [], _ => none
  | (k, v) :: es, n => if k = n then some v else mapGet es n

/-- A map assignment `d.mutexes[collection] = m`. -/
def mapSet : List (Str × Mutex) → Str → Mutex → List (Str × Mutex)
  | [], n, v => [(n, v)]
  | (k, x) :: es, n, v => if k = n then (k, v) :: es else (k, x) :: mapSet es n v

/-- Errors returned by the driver: made by `fmt.Errorf`, passed on from the operating
system, or passed on from `encoding/json`. -/
inductive Error where
  | errorf (msg : String)
  | os (e : Errno)
  | json (msg : String)
  deriving DecidableEq, Repr

/-- The two functions of `encoding/json` the driver calls, for values of type `V`:
`json.MarshalIndent(value, "", "\t")` and `json.Unmarshal`. -/
structure Codec (V : Type) where
  marshalIndent : V → Except Error Str
  unmarshal : Str → Except Error V

/-- What a call leaves behind: the value returned, the driver and the world. -/
structure Outcome (α : Type) where
  ret : Except Error α
  drv : Driver
  world : World

/-- The extension of record files. -/
def jsonExt : Str := ['.', 'j', 's', 'o', 'n']

/-- The extension added for the temporary file of a write. -/
def tmpExt : Str := ['.', 't', 'm', 'p']

/-- The method `getOrCreateMutex`: the lock registered for the collection, after
registering a new one if there was none. -/
def Driver.getOrCreateMutex (d : Driver) (w : World) (collection : Str) : Mutex × Driver × World :=
  let w := w.lock .registry
  match mapGet d.mutexes collection with
  | some m => (m, d, w.unlock .registry)
  | none =>
    let m := Mutex.collection w.nextMutex
    let w := { w with nextMutex := w.nextMutex + 1 }
    let d := { d with mutexes := mapSet d.mutexes collection m }
    (m, d, w.unlock .registry)

/-- The function `stat`: `os.Stat` on the path and, when that reports that the path does
not exist, on the path with the extension.  The error returned is always `nil`. -/
def stat (fs : FS) (path : Str) : Option FileInfo × Option Errno :=
  let r := osStat fs path
  let r := if isNotExist r then osStat fs (path ++ jsonExt) else r
  (r.toOption, none)

/-- Faults the environment injects into the three filesystem calls of one `Write`. -/
structure IOFaults where
  mkdirAll : Option Errno
  writeFile : Option WriteFault
  rename : Option Errno

/-- No injected fault. -/
def IOFaults.none : IOFaults := { mkdirAll := Option.none, writeFile := Option.none, rename := Option.none }

/-- The final path of the record file of a resource, as `Write` computes it. -/
def finalPath (d : Driver) (collection resource : Str) : Str :=
  Join [Join [d.dir, collection], resource ++ jsonExt]

/-- The path of the temporary file of a write. -/
def tempPath (d : Driver) (collection resource : Str) : Str :=
  finalPath d collection resource ++ tmpExt

/-- The part of `Write` that runs with the collection lock held. -/
def writeLocked {V : Type} (codec : Codec V) (io : IOFaults) (d : Driver) (fs : FS)
    (collection resource : Str) (value : V) : Except Error Unit × FS :=
  let dir := Join [d.dir, collection]
  let finalPath := Join [dir, resource ++ jsonExt]
  let tempPath := finalPath ++ tmpExt
  match mkdirAll io.mkdirAll fs dir with
  | (some err, fs) => (.error (.os err), fs)
  | (none, fs) =>
    match codec.marshalIndent value with
    | .error err => (.error err, fs)
    | .ok b =>
      let b := b ++ ['\n']
      match writeFile io.writeFile fs tempPath b with
      | (some err, fs) => (.error (.os err), fs)
      | (none, fs) =>
        match rename io.rename fs tempPath finalPath with
        | (some err, fs) => (.error (.os err), fs)
        | (none, fs) => (.ok (), fs)

/-- The method `Write`. -/
def Driver.Write {V : Type} (codec : Codec V) (io : IOFaults) (d : Driver) (w : World)
    (collection resource : Str) (value : V) : Outcome Unit :=
  if collection = [] then
    { ret := .error (.errorf "Missing Collection - No directory to save the record"), drv := d, world := w }
  else if resource = [] then
    { ret := .error (.errorf "Missing Resource - No name given to the record"), drv := d, world := w }
  else
    match d.getOrCreateMutex w collection with
    | (mutex, d, w) =>
      let w := w.lock mutex
      match writeLocked codec io d w.fs collection resource value with
      | (ret, fs) => { ret := ret, drv := d, world := ({ w with fs := fs }).unlock mutex }

/-- The method `Read`.  The error of `stat` is always `nil`, so the file read is always
the record path with the extension. -/
def Driver.Read {V : Type} (codec : Codec V) (d : Driver) (w : World)
    (collection resource : Str) : Outcome V :=
  if collection = [] then
    { ret := .error (.errorf "Missing Collection - No Directory to store record"), drv := d, world := w }
  else if resource = [] then
    { ret := .error (.errorf "Missing Resource - No Name given to save record"), drv := d, world := w }
  else
    let record := Join [d.dir, collection, resource]
    match (stat w.fs record).2 with
    | some err => { ret := .error (.os err), drv := d, world := w }
    | none =>
      match readFile w.fs (record ++ jsonExt) with
      | .error err => { ret := .error (.os err), drv := d, world := w }
      | .ok b => { ret := codec.unmarshal b, drv := d, world := w }

/-- The loop of `ReadAll`: read every listed file, giving up at the first error. -/
def readRecords (fs : FS) (dir : Str) : List FileInfo → List Str → Except Error (List Str)
  | [], records => .ok records
  | file :: files, records =>
    match readFile fs (Join [dir, file.name]) with
    | .error err => .error (.os err)
    | .ok b => readRecords fs dir files (records ++ [b])

/-- The method `ReadAll`.  The error of `ioutil.ReadDir` is discarded; on error the list of
files is `nil`. -/
def Driver.ReadAll (d : Driver) (w : World) (collection : Str) : Outcome (List Str) :=
  if collection = [] then
    { ret := .error (.errorf "Missing Collection - No Directory given to read from"), drv := d, world := w }
  else
    let dir := Join [d.dir, collection]
    match (stat w.fs dir).2 with
    | some err => { ret := .error (.os err), drv := d, world := w }
    | none =>
      let files := match readDir w.fs dir with
        | .ok files => files
        | .error _ => []
      { ret := readRecords w.fs dir files [], drv := d, world := w }

/-- The part of `Delete` that runs with the collection lock held. -/
def deleteLocked (d : Driver) (fs : FS) (path : Str) : Except Error Unit × FS :=
  let dir := Join [d.dir, path]
  match stat fs dir with
  | (none, _) => (.error (.errorf "Unable to find file or directory"), fs)
  | (some _, some _) => (.error (.errorf "Unable to find file or directory"), fs)
  | (some fi, none) =>
    if fi.mode.isDir then
      match removeAll fs dir with
      | (some err, fs) => (.error (.os err), fs)
      | (none, fs) => (.ok (), fs)
    else if fi.mode.isRegular then
      match removeAll fs (dir ++ jsonExt) with
      | (some err, fs) => (.error (.os err), fs)
      | (none, fs) => (.ok (), fs)
    else (.ok (), fs)

/-- The method `Delete`. -/
def Driver.Delete (d : Driver) (w : World) (collection resource : Str) : Outcome Unit :=
  if collection = [] then
    { ret := .error (.errorf "Missing Collection - No Directory given to find record"), drv := d, world := w }
  else if resource = [] then
    { ret := .error (.errorf "Missing Resource - No File Name given to delete"), drv := d, world := w }
  else
    let path := Join [collection, resource]
    match d.getOrCreateMutex w collection with
    | (mutex, d, w) =>
      let w := w.lock mutex
      match deleteLocked d w.fs path with
      | (ret, fs) => { ret := ret, drv := d, world := ({ w with fs := fs }).unlock mutex }

/-! ## Definitions used in the statements and proofs -/

/-- The final separator-delimited piece of a path. -/
def lastSeg (path : Str) : Str := (splitSlash path).getLastD []

/-- All separator-delimited pieces of a path but the final one. -/
def initSegs (path : Str) : List Str := (splitSlash path).dropLast

/-- A path element that names an entry: not empty, not `.`, not `..`. -/
def Plain (c : Str) : Prop := c ≠ [] ∧ c ≠ dot ∧ c ≠ dotdot

instance (c : Str) : Decidable (Plain c) := by unfold Plain; infer_instance

/-- A stack of kept elements as `filepath.Clean` builds it: every element names an entry,
except that a relative path may keep `..` elements at the bottom. -/
def NormStk (rooted : Bool) : List Str → Prop
  | [] => True
  | t :: rest =>
    (Plain t ∨ (t = dotdot ∧ rooted = false ∧ ∀ x ∈ rest, x = dotdot)) ∧ NormStk rooted rest

/-- No element contains the separator, and none is empty. -/
def SlashFree (L : List Str) : Prop := ∀ x ∈ L, '/' ∉ x ∧ x ≠ []

/-- The stack of elements `filepath.Clean` keeps for a path. -/
def cleanStack (s : Str) : List Str := (splitSlash s).foldl (cleanStep (isRooted s)) []

/-- The location of the directory part of a path: all its elements but the final one. -/
def resolveDir (cwd : List Str) (path : Str) : List Str :=
  ((initSegs path).foldl (cleanStep true)
    (if isRooted path then [] else cwd.foldl (cleanStep true) [])).reverse

/-- The effect on a directory of changing one of its entries. -/
def applyEntry (E : Entries) (a : Str) : Option Node → Entries
  | none => entryDel E a
  | some n => entrySet E a n

/-- The root directory joined with a collection, before cleaning. -/
def joinBase (dir c : Str) : Str := if dir = [] then c else dir ++ '/' :: c

/-- A Go string literal. -/
def str (s : String) : Str := s.toList

/-- White space as `encoding/json` skips it. -/
def isSpace (c : Char) : Bool := c = ' ' || c = '\t' || c = '\n' || c = '\r'

/-- A byte sequence without its leading and trailing white space. -/
def trimSpace (s : Str) : Str := ((s.dropWhile isSpace).reverse.dropWhile isSpace).reverse

/-- The codec `encoding/json` on the two boolean values: they are encoded as `true` and
`false`, and decoding accepts either word surrounded by white space. -/
def boolCodec : Codec Bool where
  marshalIndent := fun v => .ok (if v then str "true" else str "false")
  unmarshal := fun b =>
    if trimSpace b = str "true" then .ok true
    else if trimSpace b = str "false" then .ok false
    else .error (.json "invalid character looking for beginning of value")

/-- Decoding what was encoded and stored (the encoding followed by a newline) gives back the
value. -/
def Codec.RoundTrip {V : Type} (codec : Codec V) : Prop :=
  ∀ v b, codec.marshalIndent v = .ok b → codec.unmarshal (b ++ ['\n']) = .ok v

/-- A world whose filesystem holds the directory `/home`, which is the working directory. -/
def sampleWorld : World :=
  { fs := { root := [(str "home", .dir [])], cwd := [str "home"] }, nextMutex := 0, lockLog := [] }

/-- A driver for the directory `db`, with no lock registered. -/
def sampleDriver : Driver := { mutexes := [], dir := str "db" }

/-- A call was rejected for its arguments: it returned an error made by `fmt.Errorf` and
left the driver and the world as they were. -/
def Rejected {α : Type} (o : Outcome α) (d : Driver) (w : World) : Prop :=
  (∃ msg, o.ret = .error (.errorf msg)) ∧ o.drv = d ∧ o.world = w

/-- A world in which a directory `db/users/alice` exists. -/
def sampleWorldDir : World :=
  { fs := { root := [(str "home", .dir [(str "db", .dir [(str "users",
      .dir [(str "alice", .dir [])])])])], cwd := [str "home"] },
    nextMutex := 0, lockLog := [] }

/-- A world in which a special file (a socket) `db/users/alice` exists. -/
def sampleWorldSpecial : World :=
  { fs := { root := [(str "home", .dir [(str "db", .dir [(str "users",
      .dir [(str "alice", .special)])])])], cwd := [str "home"] },
    nextMutex := 0, lockLog := [] }

theorem getLastD_snoc (L : List Str) (x d : Str) : (L ++ [x]).getLastD d = x := by
  induction L generalizing d with
  | nil => rfl
  | cons a L ih => simp [List.getLastD, ih a]

theorem splitSlash_cons_slash (cs : Str) : splitSlash ('/' :: cs) = [] :: splitSlash cs := by
  simp [splitSlash]

theorem splitSlash_cons_other (ch : Char) (cs : Str) (h : ch ≠ '/') :
    splitSlash (ch :: cs) = consHead ch (splitSlash cs) := by
  simp [splitSlash, h]

theorem splitSlash_ne_nil (s : Str) : splitSlash s ≠ [] := by
  cases s with
  | nil => simp [splitSlash]
  | cons ch cs =>
    by_cases h : ch = '/'
    · subst h; rw [splitSlash_cons_slash]; simp
    · rw [splitSlash_cons_other ch cs h]
      cases splitSlash cs <;> simp [consHead]

theorem splitSlash_snoc (s : Str) : ∃ L x, splitSlash s = L ++ [x] := by
  have h := splitSlash_ne_nil s
  exact ⟨(splitSlash s).dropLast, (splitSlash s).getLast h, (List.dropLast_append_getLast h).symm⟩

theorem segs_of_snoc {s : Str} {L : List Str} {x : Str} (h : splitSlash s = L ++ [x]) :
    initSegs s = L ∧ lastSeg s = x := by
  unfold initSegs lastSeg
  rw [h]
  exact ⟨List.dropLast_concat, getLastD_snoc L x []⟩

theorem splitSlash_eq_init_last (s : Str) : splitSlash s = initSegs s ++ [lastSeg s] := by
  obtain ⟨L, x, h⟩ := splitSlash_snoc s
  obtain ⟨h1, h2⟩ := segs_of_snoc h
  rw [h1, h2, h]

theorem consHead_append (ch : Char) (L M : List Str) (h : L ≠ []) :
    consHead ch (L ++ M) = consHead ch L ++ M := by
  cases L with
  | nil => exact absurd rfl h
  | cons a L => rfl

theorem splitSlash_append_slash (a b : Str) :
    splitSlash (a ++ '/' :: b) = splitSlash a ++ splitSlash b := by
  induction a with
  | nil => rw [List.nil_append, splitSlash_cons_slash]; rfl
  | cons ch cs ih =>
    rw [List.cons_append]
    by_cases h : ch = '/'
    · subst h; rw [splitSlash_cons_slash, splitSlash_cons_slash, ih]; rfl
    · rw [splitSlash_cons_other _ _ h, splitSlash_cons_other _ _ h, ih,
        consHead_append _ _ _ (splitSlash_ne_nil cs)]

theorem splitSlash_of_not_mem (s : Str) (h : '/' ∉ s) : splitSlash s = [s] := by
  induction s with
  | nil => rfl
  | cons ch cs ih =>
    have h1 : ch ≠ '/' := fun e => h (by simp [e])
    have h2 : '/' ∉ cs := fun e => h (by simp [e])
    rw [splitSlash_cons_other _ _ h1, ih h2]; rfl

theorem splitSlash_append_snoc (s t : Str) (ht : '/' ∉ t) (L : List Str) (x : Str)
    (h : splitSlash s = L ++ [x]) : splitSlash (s ++ t) = L ++ [x ++ t] := by
  induction s generalizing L x with
  | nil =>
    have h2 : ([] : List Str) ++ [[]] = L ++ [x] := h
    obtain ⟨e1, e2⟩ := List.append_inj' h2 rfl
    simp only [List.cons.injEq, and_true] at e2
    subst e1; subst e2
    simpa using splitSlash_of_not_mem t ht
  | cons ch cs ih =>
    obtain ⟨L', x', h'⟩ := splitSlash_snoc cs
    have ih' := ih L' x' h'
    rw [List.cons_append]
    by_cases hc : ch = '/'
    · subst hc
      rw [splitSlash_cons_slash, h'] at h
      have h2 : (([] : Str) :: L') ++ [x'] = L ++ [x] := h
      obtain ⟨e1, e2⟩ := List.append_inj' h2 rfl
      simp only [List.cons.injEq, and_true] at e2
      subst e1; subst e2
      rw [splitSlash_cons_slash, ih']; rfl
    · rw [splitSlash_cons_other _ _ hc, h'] at h
      rw [splitSlash_cons_other _ _ hc, ih']
      cases L' with
      | nil =>
        have h2 : ([] : List Str) ++ [ch :: x'] = L ++ [x] := h
        obtain ⟨e1, e2⟩ := List.append_inj' h2 rfl
        simp only [List.cons.injEq, and_true] at e2
        subst e1; subst e2; rfl
      | cons y ys =>
        have h2 : ((ch :: y) :: ys) ++ [x'] = L ++ [x] := h
        obtain ⟨e1, e2⟩ := List.append_inj' h2 rfl
        simp only [List.cons.injEq, and_true] at e2
        subst e1; subst e2; rfl

theorem splitSlash_append_of_not_mem (s t : Str) (h : '/' ∉ t) :
    splitSlash (s ++ t) = initSegs s ++ [lastSeg s ++ t] :=
  splitSlash_append_snoc s t h _ _ (splitSlash_eq_init_last s)

theorem lastSeg_append_slash (a b : Str) : lastSeg (a ++ '/' :: b) = lastSeg b := by
  have h : splitSlash (a ++ '/' :: b) = (splitSlash a ++ initSegs b) ++ [lastSeg b] := by
    rw [splitSlash_append_slash, splitSlash_eq_init_last b, List.append_assoc]
  exact (segs_of_snoc h).2

theorem lastSeg_append_of_not_mem (s t : Str) (h : '/' ∉ t) : lastSeg (s ++ t) = lastSeg s ++ t :=
  (segs_of_snoc (splitSlash_append_of_not_mem s t h)).2

theorem initSegs_append_of_not_mem (s t : Str) (h : '/' ∉ t) : initSegs (s ++ t) = initSegs s :=
  (segs_of_snoc (splitSlash_append_of_not_mem s t h)).1

theorem not_mem_consHead (ch : Char) (hc : ch ≠ '/') (L : List Str) (hL : ∀ x ∈ L, '/' ∉ x) :
    ∀ x ∈ consHead ch L, '/' ∉ x := by
  cases L with
  | nil => 
    intro x hx
    simp only [consHead, List.mem_singleton] at hx
    subst hx
    simpa using fun e => hc e.symm
  | cons y ys =>
    intro x hx
    simp only [consHead, List.mem_cons] at hx
    rcases hx with hx | hx
    · subst hx
      have := hL y (by simp)
      simp only [List.mem_cons, not_or]
      exact ⟨fun e => hc e.symm, this⟩
    · exact hL x (by simp [hx])

theorem not_mem_of_mem_splitSlash (s : Str) : ∀ x ∈ splitSlash s, '/' ∉ x := by
  induction s with
  | nil => intro x hx; simp [splitSlash] at hx; simp [hx]
  | cons ch cs ih =>
    by_cases hc : ch = '/'
    · subst hc
      rw [splitSlash_cons_slash]
      intro x hx
      simp only [List.mem_cons] at hx
      rcases hx with hx | hx
      · simp [hx]
      · exact ih x hx
    · rw [splitSlash_cons_other _ _ hc]
      exact not_mem_consHead ch hc _ ih

theorem not_mem_lastSeg (s : Str) : '/' ∉ lastSeg s :=
  not_mem_of_mem_splitSlash s _ (by rw [splitSlash_eq_init_last s]; simp)

theorem plain_cases (c : Str) : c = [] ∨ c = dot ∨ c = dotdot ∨ Plain c := by
  by_cases h1 : c = []
  · exact Or.inl h1
  · by_cases h2 : c = dot
    · exact Or.inr (Or.inl h2)
    · by_cases h3 : c = dotdot
      · exact Or.inr (Or.inr (Or.inl h3))
      · exact Or.inr (Or.inr (Or.inr ⟨h1, h2, h3⟩))

theorem cleanStep_plain (rooted : Bool) (stk : List Str) (c : Str) (h : Plain c) :
    cleanStep rooted stk c = c :: stk := by
  obtain ⟨h1, h2, h3⟩ := h
  simp [cleanStep, h1, h2, h3]

theorem cleanStep_nil (rooted : Bool) (stk : List Str) : cleanStep rooted stk [] = stk := by
  simp [cleanStep]

theorem cleanStep_dot (rooted : Bool) (stk : List Str) : cleanStep rooted stk dot = stk := by
  simp [cleanStep]

theorem dotdot_ne_nil : dotdot ≠ [] := by decide

theorem dotdot_ne_dot : dotdot ≠ dot := by decide

theorem not_plain_dotdot : ¬ Plain dotdot := fun h => h.2.2 rfl

theorem cleanStep_dotdot_nil (rooted : Bool) :
    cleanStep rooted [] dotdot = if rooted then [] else [dotdot] := by
  simp [cleanStep, dotdot_ne_nil, dotdot_ne_dot]

theorem cleanStep_dotdot_cons (rooted : Bool) (t : Str) (rest : List Str) :
    cleanStep rooted (t :: rest) dotdot = if t = dotdot then dotdot :: t :: rest else rest := by
  simp [cleanStep, dotdot_ne_nil, dotdot_ne_dot]

theorem normStk_tail {rooted : Bool} {t : Str} {rest : List Str} (h : NormStk rooted (t :: rest)) :
    NormStk rooted rest := h.2

theorem normStk_of_append {rooted : Bool} (A B : List Str) (h : NormStk rooted (A ++ B)) :
    NormStk rooted B := by
  induction A with
  | nil => exact h
  | cons a A ih => exact ih h.2

theorem normStk_all_dotdot (L : List Str) (h : ∀ x ∈ L, x = dotdot) : NormStk false L := by
  induction L with
  | nil => trivial
  | cons a L ih =>
    refine ⟨Or.inr ⟨h a (by simp), rfl, fun x hx => h x (by simp [hx])⟩, ih ?_⟩
    intro x hx
    exact h x (by simp [hx])

theorem normStk_cleanStep (rooted : Bool) (stk : List Str) (c : Str) (h : NormStk rooted stk) :
    NormStk rooted (cleanStep rooted stk c) := by
  rcases plain_cases c with hc | hc | hc | hc
  · subst hc; rw [cleanStep_nil]; exact h
  · subst hc; rw [cleanStep_dot]; exact h
  · subst hc
    cases stk with
    | nil =>
      rw [cleanStep_dotdot_nil]
      cases rooted with
      | true => trivial
      | false => exact ⟨Or.inr ⟨rfl, rfl, by simp⟩, trivial⟩
    | cons t rest =>
      rw [cleanStep_dotdot_cons]
      by_cases ht : t = dotdot
      · rw [if_pos ht]
        rcases h.1 with hp | ⟨_, hr, hall⟩
        · exact absurd (ht ▸ hp) not_plain_dotdot
        · refine ⟨Or.inr ⟨rfl, hr, ?_⟩, h⟩
          intro x hx
          simp only [List.mem_cons] at hx
          rcases hx with hx | hx
          · exact hx.trans ht
          · exact hall x hx
      · rw [if_neg ht]; exact h.2
  · rw [cleanStep_plain _ _ _ hc]; exact ⟨Or.inl hc, h⟩

theorem normStk_foldl (rooted : Bool) (cs : List Str) (stk : List Str) (h : NormStk rooted stk) :
    NormStk rooted (cs.foldl (cleanStep rooted) stk) := by
  induction cs generalizing stk with
  | nil => exact h
  | cons c cs ih => exact ih _ (normStk_cleanStep rooted stk c h)

theorem slashFree_dotdot : '/' ∉ dotdot ∧ dotdot ≠ [] := by decide

theorem slashFree_cleanStep (rooted : Bool) (stk : List Str) (c : Str) (h : SlashFree stk)
    (hc : '/' ∉ c) : SlashFree (cleanStep rooted stk c) := by
  rcases plain_cases c with hc' | hc' | hc' | hc'
  · subst hc'; rw [cleanStep_nil]; exact h
  · subst hc'; rw [cleanStep_dot]; exact h
  · subst hc'
    cases stk with
    | nil =>
      rw [cleanStep_dotdot_nil]
      cases rooted with
      | true => exact h
      | false =>
        intro x hx
        simp only [if_false, Bool.false_eq_true, List.mem_singleton] at hx
        subst hx; exact slashFree_dotdot
    | cons t rest =>
      rw [cleanStep_dotdot_cons]
      by_cases ht : t = dotdot
      · rw [if_pos ht]
        intro x hx
        simp only [List.mem_cons] at hx
        rcases hx with hx | hx | hx
        · subst hx; exact slashFree_dotdot
        · exact h x (by simp [hx])
        · exact h x (by simp [hx])
      · rw [if_neg ht]
        intro x hx
        exact h x (by simp [hx])
  · rw [cleanStep_plain _ _ _ hc']
    intro x hx
    simp only [List.mem_cons] at hx
    rcases hx with hx | hx
    · subst hx; exact ⟨hc, hc'.1⟩
    · exact h x hx

theorem slashFree_foldl (rooted : Bool) (cs : List Str) (stk : List Str) (h : SlashFree stk)
    (hcs : ∀ x ∈ cs, '/' ∉ x) : SlashFree (cs.foldl (cleanStep rooted) stk) := by
  induction cs generalizing stk with
  | nil => exact h
  | cons c cs ih =>
    exact ih _ (slashFree_cleanStep rooted stk c h (hcs c (by simp)))
      (fun x hx => hcs x (by simp [hx]))

/-- Cleaning the elements of a cleaned stack, bottom first, rebuilds the stack. -/
theorem foldl_cleanStep_norm (rooted : Bool) (L S : List Str) (h : NormStk rooted (L.reverse ++ S)) :
    L.foldl (cleanStep rooted) S = L.reverse ++ S := by
  induction L generalizing S with
  | nil => rfl
  | cons c L ih =>
    have h' : NormStk rooted (L.reverse ++ (c :: S)) := by
      simpa [List.reverse_cons, List.append_assoc] using h
    have hcS : NormStk rooted (c :: S) := normStk_of_append _ _ h'
    have hstep : cleanStep rooted S c = c :: S := by
      rcases hcS.1 with hp | ⟨hc, hr, hall⟩
      · exact cleanStep_plain _ _ _ hp
      · subst hc
        cases S with
        | nil => rw [cleanStep_dotdot_nil, hr]; rfl
        | cons t rest =>
          rw [cleanStep_dotdot_cons, if_pos (hall t (by simp))]
    rw [List.foldl_cons, hstep, ih _ h']
    simp [List.reverse_cons, List.append_assoc]

/-- Resolving the cleaned elements of a path gives the same location as resolving the
elements themselves.  `rooted'` and `S0` are the mode and start of the outer resolution. -/
theorem foldl_cleanStep_reverse (rooted rooted' : Bool) (S0 : List Str)
    (h0 : rooted = true → rooted' = true ∧ S0 = []) (cs : List Str) (K : List Str)
    (hK : NormStk rooted K) :
    (cs.foldl (cleanStep rooted) K).reverse.foldl (cleanStep rooted') S0
      = cs.foldl (cleanStep rooted') (K.reverse.foldl (cleanStep rooted') S0) := by
  induction cs generalizing K with
  | nil => rfl
  | cons c cs ih =>
    rw [List.foldl_cons, List.foldl_cons, ih _ (normStk_cleanStep rooted K c hK)]
    congr 1
    rcases plain_cases c with hc | hc | hc | hc
    · subst hc; simp [cleanStep_nil]
    · subst hc; simp [cleanStep_dot]
    · subst hc
      cases K with
      | nil =>
        rw [cleanStep_dotdot_nil]
        cases rooted with
        | true =>
          obtain ⟨hr, hS⟩ := h0 rfl
          subst hr; subst hS
          simp [cleanStep_dotdot_nil]
        | false => simp
      | cons t rest =>
        rw [cleanStep_dotdot_cons]
        by_cases ht : t = dotdot
        · rw [if_pos ht]; simp [List.foldl_append]
        · rw [if_neg ht]
          have hp : Plain t := by
            rcases hK.1 with hp | ⟨hd, _⟩
            · exact hp
            · exact absurd hd ht
          simp only [List.reverse_cons, List.foldl_append, List.foldl_cons, List.foldl_nil]
          rw [cleanStep_plain _ _ _ hp, cleanStep_dotdot_cons, if_neg ht]
    · rw [cleanStep_plain _ _ _ hc]
      simp [List.foldl_append]

theorem joinSlash_cons (a : Str) (L : List Str) (h : L ≠ []) :
    joinSlash (a :: L) = a ++ '/' :: joinSlash L := by
  cases L with
  | nil => exact absurd rfl h
  | cons b rest => rfl

theorem joinSlash_snoc (L : List Str) (n : Str) (h : L ≠ []) :
    joinSlash (L ++ [n]) = joinSlash L ++ '/' :: n := by
  induction L with
  | nil => exact absurd rfl h
  | cons a L ih =>
    cases L with
    | nil => rfl
    | cons b rest =>
      have e : a :: b :: rest ++ [n] = a :: (b :: rest ++ [n]) := rfl
      rw [e, joinSlash_cons a _ (by simp), ih (by simp), joinSlash_cons a _ (by simp)]
      simp

theorem splitSlash_joinSlash (L : List Str) (hne : L ≠ []) (h : ∀ x ∈ L, '/' ∉ x) :
    splitSlash (joinSlash L) = L := by
  induction L with
  | nil => exact absurd rfl hne
  | cons a L ih =>
    cases L with
    | nil => exact splitSlash_of_not_mem a (h a (by simp))
    | cons b rest =>
      rw [joinSlash_cons a _ (by simp), splitSlash_append_slash,
        splitSlash_of_not_mem a (h a (by simp)), ih (by simp) (fun x hx => h x (by simp [hx]))]
      rfl

theorem slashFree_reverse (L : List Str) (h : SlashFree L) : SlashFree L.reverse := by
  intro x hx
  exact h x (by simpa using hx)

theorem foldl_splitSlash_render (rooted rooted' : Bool) (L : List Str) (hL : SlashFree L)
    (S : List Str) :
    (splitSlash (render rooted L)).foldl (cleanStep rooted') S = L.foldl (cleanStep rooted') S := by
  have hsf : ∀ x ∈ L, '/' ∉ x := fun x hx => (hL x hx).1
  cases rooted with
  | true =>
    simp only [render, if_true]
    rw [splitSlash_cons_slash, List.foldl_cons, cleanStep_nil]
    cases L with
    | nil => simp [joinSlash, splitSlash, cleanStep_nil]
    | cons a L => rw [splitSlash_joinSlash _ (by simp) hsf]
  | false =>
    cases L with
    | nil =>
      have : splitSlash (render false []) = [dot] := by decide
      rw [this]; simp [cleanStep_dot]
    | cons a L =>
      have : render false (a :: L) = joinSlash (a :: L) := by simp [render]
      rw [this, splitSlash_joinSlash _ (by simp) hsf]

theorem isRooted_append (a b : Str) (h : a ≠ []) : isRooted (a ++ b) = isRooted a := by
  cases a with
  | nil => exact absurd rfl h
  | cons x xs => rfl

theorem isRooted_render (rooted : Bool) (L : List Str) (hL : SlashFree L) :
    isRooted (render rooted L) = rooted := by
  cases rooted with
  | true => simp [render, isRooted]
  | false =>
    cases L with
    | nil => decide
    | cons a L =>
      have ha := hL a (by simp)
      cases a with
      | nil => exact absurd rfl ha.2
      | cons ch cs =>
        have hch : ch ≠ '/' := fun e => ha.1 (by simp [e])
        have : render false ((ch :: cs) :: L) = ch :: (joinSlash (cs :: L)) := by
          cases L <;> simp [render, joinSlash]
        rw [this]
        simp [isRooted, hch]

theorem render_ne_nil (rooted : Bool) (L : List Str) (hL : SlashFree L) : render rooted L ≠ [] := by
  cases rooted with
  | true => simp [render]
  | false =>
    cases L with
    | nil => decide
    | cons a L =>
      have ha := hL a (by simp)
      cases a with
      | nil => exact absurd rfl ha.2
      | cons ch cs =>
        have : render false ((ch :: cs) :: L) = ch :: (joinSlash (cs :: L)) := by
          cases L <;> simp [render, joinSlash]
        rw [this]; simp

theorem normStk_cleanStack (s : Str) : NormStk (isRooted s) (cleanStack s) :=
  normStk_foldl _ _ _ trivial

theorem slashFree_cleanStack (s : Str) : SlashFree (cleanStack s) :=
  slashFree_foldl _ _ _ (fun _ hx => by simp at hx) (not_mem_of_mem_splitSlash s)

theorem Clean_eq (s : Str) (h : s ≠ []) : Clean s = render (isRooted s) (cleanStack s).reverse := by
  simp [Clean, h, cleanStack]

theorem Clean_nil : Clean [] = dot := rfl

theorem Clean_ne_nil (s : Str) : Clean s ≠ [] := by
  by_cases h : s = []
  · subst h; decide
  · rw [Clean_eq s h]
    exact render_ne_nil _ _ (slashFree_reverse _ (slashFree_cleanStack s))

theorem isRooted_Clean (s : Str) (h : s ≠ []) : isRooted (Clean s) = isRooted s := by
  rw [Clean_eq s h]
  exact isRooted_render _ _ (slashFree_reverse _ (slashFree_cleanStack s))

theorem foldl_splitSlash_Clean (s : Str) (h : s ≠ []) (rooted' : Bool) (S : List Str) :
    (splitSlash (Clean s)).foldl (cleanStep rooted') S
      = (cleanStack s).reverse.foldl (cleanStep rooted') S := by
  rw [Clean_eq s h]
  exact foldl_splitSlash_render _ _ _ (slashFree_reverse _ (slashFree_cleanStack s)) S

theorem cleanStack_Clean (s : Str) (h : s ≠ []) : cleanStack (Clean s) = cleanStack s := by
  unfold cleanStack
  rw [isRooted_Clean s h, foldl_splitSlash_Clean s h]
  have := foldl_cleanStep_norm (isRooted s) (cleanStack s).reverse []
    (by simpa using normStk_cleanStack s)
  simpa [cleanStack] using this

theorem Clean_idem (s : Str) : Clean (Clean s) = Clean s := by
  by_cases h : s = []
  · subst h; decide
  · rw [Clean_eq (Clean s) (Clean_ne_nil s), cleanStack_Clean s h, isRooted_Clean s h, Clean_eq s h]

theorem cleanStack_append_slash (a b : Str) (h : a ≠ []) :
    cleanStack (a ++ '/' :: b) = (splitSlash b).foldl (cleanStep (isRooted a)) (cleanStack a) := by
  unfold cleanStack
  rw [isRooted_append a _ h, splitSlash_append_slash, List.foldl_append]

/-- Cleaning is transparent on the left of a join. -/
theorem Clean_Clean_append (s x : Str) (h : s ≠ []) :
    Clean (Clean s ++ '/' :: x) = Clean (s ++ '/' :: x) := by
  have h1 : Clean s ++ '/' :: x ≠ [] := by simp
  have h2 : s ++ '/' :: x ≠ [] := by simp
  rw [Clean_eq _ h1, Clean_eq _ h2, cleanStack_append_slash _ _ (Clean_ne_nil s),
    cleanStack_append_slash _ _ h, isRooted_append _ _ (Clean_ne_nil s), isRooted_append _ _ h,
    isRooted_Clean s h, cleanStack_Clean s h]

/-- Cleaning a relative path is transparent on the right of a join. -/
theorem Clean_append_Clean (a b : Str) (ha : a ≠ []) (hb : b ≠ []) (hr : isRooted b = false) :
    Clean (a ++ '/' :: Clean b) = Clean (a ++ '/' :: b) := by
  have h1 : a ++ '/' :: Clean b ≠ [] := by simp
  have h2 : a ++ '/' :: b ≠ [] := by simp
  rw [Clean_eq _ h1, Clean_eq _ h2, cleanStack_append_slash _ _ ha,
    cleanStack_append_slash _ _ ha, isRooted_append _ _ ha, isRooted_append _ _ ha,
    foldl_splitSlash_Clean b hb]
  have := foldl_cleanStep_reverse (isRooted b) (isRooted a) (cleanStack a)
    (by rw [hr]; intro h; cases h) (splitSlash b) [] trivial
  simp only [List.reverse_nil, List.foldl_nil] at this
  rw [← this]; rfl

theorem resolve_Clean (cwd : List Str) (s : Str) : resolve cwd (Clean s) = resolve cwd s := by
  by_cases h : s = []
  · subst h
    simp [resolve, Clean_nil, isRooted, dot, splitSlash, consHead, cleanStep]
  · unfold resolve
    rw [isRooted_Clean s h, foldl_splitSlash_Clean s h]
    have := foldl_cleanStep_reverse (isRooted s) true
      (if isRooted s then [] else cwd.foldl (cleanStep true) [])
      (by intro hr; simp [hr]) (splitSlash s) [] trivial
    simp only [List.reverse_nil, List.foldl_nil] at this
    rw [← this]; rfl

theorem plain_of_length (c : Str) (h : 3 ≤ c.length) : Plain c := by
  refine ⟨?_, ?_, ?_⟩ <;> intro e <;> subst e <;> simp [dot, dotdot] at h

theorem plain_append_jsonExt (n : Str) : Plain (n ++ jsonExt) :=
  plain_of_length _ (by simp [jsonExt])

theorem plain_append_tmpExt (n : Str) : Plain (n ++ tmpExt) :=
  plain_of_length _ (by simp [tmpExt])

theorem not_mem_jsonExt : '/' ∉ jsonExt := by decide

theorem not_mem_tmpExt : '/' ∉ tmpExt := by decide

theorem ne_nil_of_plain_lastSeg (p : Str) (h : Plain (lastSeg p)) : p ≠ [] := by
  intro e; subst e; exact h.1 rfl

theorem resolve_of_plain_last (cwd : List Str) (p : Str) (h : Plain (lastSeg p)) :
    resolve cwd p = resolveDir cwd p ++ [lastSeg p] := by
  unfold resolve resolveDir
  rw [splitSlash_eq_init_last p, List.foldl_append]
  simp only [List.foldl_cons, List.foldl_nil]
  rw [cleanStep_plain _ _ _ h]
  simp

theorem resolveDir_append (cwd : List Str) (p sfx : Str) (hp : p ≠ []) (h : '/' ∉ sfx) :
    resolveDir cwd (p ++ sfx) = resolveDir cwd p := by
  unfold resolveDir
  rw [initSegs_append_of_not_mem p sfx h, isRooted_append p sfx hp]

/-- A path with a suffix added to its final element names a sibling of the path. -/
theorem resolve_append (cwd : List Str) (p sfx : Str) (hp : p ≠ []) (h : '/' ∉ sfx)
    (hpl : Plain (lastSeg p ++ sfx)) :
    resolve cwd (p ++ sfx) = resolveDir cwd p ++ [lastSeg p ++ sfx] := by
  have e := lastSeg_append_of_not_mem p sfx h
  rw [resolve_of_plain_last cwd (p ++ sfx) (e ▸ hpl), resolveDir_append cwd p sfx hp h, e]

theorem render_snoc_append (rooted : Bool) (L : List Str) (n sfx : Str) :
    render rooted (L ++ [n ++ sfx]) = render rooted (L ++ [n]) ++ sfx := by
  have hj : joinSlash (L ++ [n ++ sfx]) = joinSlash (L ++ [n]) ++ sfx := by
    cases L with
    | nil => rfl
    | cons a L =>
      rw [joinSlash_snoc _ _ (by simp), joinSlash_snoc _ _ (by simp)]
      simp
  cases rooted with
  | true => simp [render, hj]
  | false => simp [render, hj]

theorem cleanStack_of_plain_last (p : Str) (h : Plain (lastSeg p)) :
    cleanStack p = lastSeg p :: (initSegs p).foldl (cleanStep (isRooted p)) [] := by
  unfold cleanStack
  rw [splitSlash_eq_init_last p, List.foldl_append]
  simp only [List.foldl_cons, List.foldl_nil]
  rw [cleanStep_plain _ _ _ h]

/-- Cleaning commutes with adding a suffix to a final element that names an entry. -/
theorem Clean_append_ext (y sfx : Str) (hy : Plain (lastSeg y)) (h : '/' ∉ sfx)
    (hpl : Plain (lastSeg y ++ sfx)) : Clean (y ++ sfx) = Clean y ++ sfx := by
  have hne := ne_nil_of_plain_lastSeg y hy
  have hne' : y ++ sfx ≠ [] := by simp [hne]
  have e := lastSeg_append_of_not_mem y sfx h
  rw [Clean_eq _ hne', Clean_eq _ hne, cleanStack_of_plain_last _ (e ▸ hpl),
    cleanStack_of_plain_last _ hy, isRooted_append _ _ hne, initSegs_append_of_not_mem y sfx h, e]
  simp only [List.reverse_cons]
  exact render_snoc_append _ _ _ _

theorem lastSeg_of_not_mem (n : Str) (h : '/' ∉ n) : lastSeg n = n := by
  unfold lastSeg; rw [splitSlash_of_not_mem n h]; rfl

theorem lastSeg_render_snoc (rooted : Bool) (L : List Str) (n : Str) (h : '/' ∉ n) :
    lastSeg (render rooted (L ++ [n])) = n := by
  have hj : L ≠ [] → joinSlash (L ++ [n]) = joinSlash L ++ '/' :: n := joinSlash_snoc L n
  cases rooted with
  | true =>
    by_cases hL : L = []
    · subst hL
      have : render true ([] ++ [n]) = [] ++ '/' :: n := by simp [render, joinSlash]
      rw [this, lastSeg_append_slash, lastSeg_of_not_mem n h]
    · have : render true (L ++ [n]) = ('/' :: joinSlash L) ++ '/' :: n := by
        simp [render, hj hL]
      rw [this, lastSeg_append_slash, lastSeg_of_not_mem n h]
  | false =>
    by_cases hL : L = []
    · subst hL
      have : render false ([] ++ [n]) = n := by simp [render, joinSlash]
      rw [this, lastSeg_of_not_mem n h]
    · have : render false (L ++ [n]) = joinSlash L ++ '/' :: n := by
        simp [render, hj hL]
      rw [this, lastSeg_append_slash, lastSeg_of_not_mem n h]

theorem lastSeg_Clean (s : Str) (h : Plain (lastSeg s)) : lastSeg (Clean s) = lastSeg s := by
  rw [Clean_eq s (ne_nil_of_plain_lastSeg s h), cleanStack_of_plain_last s h, List.reverse_cons]
  exact lastSeg_render_snoc _ _ _ (not_mem_lastSeg s)

theorem endsWithDot_eq_false (p : Str) (h : lastSeg p ≠ dot) : endsWithDot p = false := by
  by_contra hc
  have hc' : endsWithDot p = true := by simpa using hc
  simp only [endsWithDot, Bool.or_eq_true, decide_eq_true_eq] at hc'
  rcases hc' with hc' | hc'
  · subst hc'; exact h (by decide)
  · have hp : p = p.reverse.reverse := by simp
    cases hr : p.reverse with
    | nil => rw [hr] at hc'; simp at hc'
    | cons x xs =>
      cases xs with
      | nil => rw [hr] at hc'; simp at hc'
      | cons y ys =>
        rw [hr] at hc'
        simp only [List.take_succ_cons, List.take_zero, List.cons.injEq, and_true] at hc'
        obtain ⟨rfl, rfl⟩ := hc'
        rw [hr] at hp
        have : p = ys.reverse ++ '/' :: ['.'] := by rw [hp]; simp
        rw [this, lastSeg_append_slash] at h
        exact h (by decide)

/-! ## Lemmas on the filesystem tree -/

theorem entryGet_entrySet_same (es : Entries) (n : Str) (v : Node) :
    entryGet (entrySet es n v) n = some v := by
  induction es with
  | nil => simp [entrySet, entryGet]
  | cons e es ih =>
    obtain ⟨k, x⟩ := e
    by_cases h : k = n
    · simp [entrySet, entryGet, h]
    · simp [entrySet, entryGet, h, ih]

theorem entryGet_entrySet_ne (es : Entries) (n m : Str) (v : Node) (hm : m ≠ n) :
    entryGet (entrySet es n v) m = entryGet es m := by
  induction es with
  | nil => simp [entrySet, entryGet, Ne.symm hm]
  | cons e es ih =>
    obtain ⟨k, x⟩ := e
    by_cases h : k = n
    · subst h; simp [entrySet, entryGet, Ne.symm hm]
    · by_cases h2 : k = m
      · subst h2; simp [entrySet, entryGet, hm]
      · simp [entrySet, entryGet, h, h2, ih]

theorem entryGet_entryDel_same (es : Entries) (n : Str) : entryGet (entryDel es n) n = none := by
  induction es with
  | nil => rfl
  | cons e es ih =>
    obtain ⟨k, x⟩ := e
    by_cases h : k = n
    · simpa [entryDel, List.filter_cons, h] using ih
    · simpa [entryDel, List.filter_cons, h, entryGet] using ih

theorem entryGet_entryDel_ne (es : Entries) (n m : Str) (hm : m ≠ n) :
    entryGet (entryDel es n) m = entryGet es m := by
  induction es with
  | nil => rfl
  | cons e es ih =>
    obtain ⟨k, x⟩ := e
    by_cases h : k = n
    · subst h
      have : entryGet ((k, x) :: es) m = entryGet es m := by simp [entryGet, Ne.symm hm]
      rw [this, ← ih]
      simp [entryDel, List.filter_cons]
    · by_cases h2 : k = m
      · subst h2; simp [entryDel, List.filter_cons, hm, entryGet]
      · have : entryGet ((k, x) :: es) m = entryGet es m := by simp [entryGet, h2]
        rw [this, ← ih]
        simp [entryDel, List.filter_cons, h, entryGet, h2]

theorem walk_nil (es : Entries) : walk es [] = .ok (.dir es) := rfl

theorem walk_cons (es : Entries) (c : Str) (cs : List Str) :
    walk es (c :: cs) = match entryGet es c with
      | none => .error .ENOENT
      | some (.file data) => if cs = [] then .ok (.file data) else .error .ENOTDIR
      | some .special => if cs = [] then .ok .special else .error .ENOTDIR
      | some (.dir sub) => walk sub cs := rfl

/-- Looking up an entry goes through the directory that holds it. -/
theorem walk_snoc (es : Entries) (P : List Str) (a : Str) :
    walk es (P ++ [a]) = match walk es P with
      | .ok (.dir E) =>
        (match entryGet E a with
          | none => .error .ENOENT
          | some n => .ok n)
      | .ok (.file _) => .error .ENOTDIR
      | .ok .special => .error .ENOTDIR
      | .error e => .error e := by
  induction P generalizing es with
  | nil =>
    rw [List.nil_append, walk_cons, walk_nil]
    simp only
    cases h : entryGet es a with
    | none => rfl
    | some n => cases n <;> simp [walk_nil]
  | cons c cs ih =>
    rw [List.cons_append, walk_cons, walk_cons]
    cases h : entryGet es c with
    | none => rfl
    | some n =>
      cases n with
      | file data =>
        by_cases hcs : cs = []
        · subst hcs; rfl
        · simp [hcs]
      | special =>
        by_cases hcs : cs = []
        · subst hcs; rfl
        · simp [hcs]
      | dir sub => exact ih sub

theorem alter_single (f : Option Node → Except Errno (Option Node)) (es : Entries) (c : Str) :
    alter f es [c] = match f (entryGet es c) with
      | .error e => .error e
      | .ok r => .ok (applyEntry es c r) := by
  rw [alter]
  cases f (entryGet es c) with
  | error e => rfl
  | ok r => cases r <;> rfl

theorem alter_cons_cons (f : Option Node → Except Errno (Option Node)) (es : Entries)
    (c c' : Str) (cs : List Str) :
    alter f es (c :: c' :: cs) = match entryGet es c with
      | none => .error .ENOENT
      | some (.file _) => .error .ENOTDIR
      | some .special => .error .ENOTDIR
      | some (.dir sub) =>
        match alter f sub (c' :: cs) with
        | .error e => .error e
        | .ok sub' => .ok (entrySet es c (.dir sub')) := by
  rw [alter]

theorem snoc_eq_cons (cs : List Str) (a : Str) : ∃ c' cs', cs ++ [a] = c' :: cs' := by
  cases cs with
  | nil => exact ⟨a, [], rfl⟩
  | cons x xs => exact ⟨x, xs ++ [a], rfl⟩

/-- A successful change of an entry: the directory holding it existed, and afterwards holds
the changed entries. -/
theorem alter_snoc_ok (f : Option Node → Except Errno (Option Node)) (es es' : Entries)
    (P : List Str) (a : Str) (h : alter f es (P ++ [a]) = .ok es') :
    ∃ E r, walk es P = .ok (.dir E) ∧ f (entryGet E a) = .ok r ∧
      walk es' P = .ok (.dir (applyEntry E a r)) := by
  induction P generalizing es es' with
  | nil =>
    rw [List.nil_append, alter_single] at h
    cases hf : f (entryGet es a) with
    | error e => rw [hf] at h; cases h
    | ok r =>
      rw [hf] at h
      simp only [Except.ok.injEq] at h
      exact ⟨es, r, rfl, hf, by rw [← h]; rfl⟩
  | cons c cs ih =>
    obtain ⟨c', cs', hcs⟩ := snoc_eq_cons cs a
    rw [List.cons_append, hcs, alter_cons_cons] at h
    cases hg : entryGet es c with
    | none => rw [hg] at h; cases h
    | some n =>
      cases n with
      | file data => rw [hg] at h; cases h
      | special => rw [hg] at h; cases h
      | dir sub =>
        rw [hg] at h
        simp only at h
        cases ha : alter f sub (c' :: cs') with
        | error e => rw [ha] at h; cases h
        | ok sub' =>
          rw [ha] at h
          simp only [Except.ok.injEq] at h
          rw [← hcs] at ha
          obtain ⟨E, r, h1, h2, h3⟩ := ih sub sub' ha
          refine ⟨E, r, ?_, h2, ?_⟩
          · rw [walk_cons, hg]; exact h1
          · rw [← h, walk_cons, entryGet_entrySet_same]; exact h3

/-- When the directory holding the entry exists, the change succeeds or fails as `f` does. -/
theorem alter_snoc_of (f : Option Node → Except Errno (Option Node)) (es : Entries)
    (P : List Str) (a : Str) (E : Entries) (h : walk es P = .ok (.dir E)) :
    (∀ e, f (entryGet E a) = .error e → alter f es (P ++ [a]) = .error e) ∧
    (∀ r, f (entryGet E a) = .ok r → ∃ es', alter f es (P ++ [a]) = .ok es') := by
  induction P generalizing es with
  | nil =>
    rw [walk_nil] at h
    simp only [Except.ok.injEq, Node.dir.injEq] at h
    subst h
    rw [List.nil_append, alter_single]
    constructor
    · intro e he; rw [he]
    · intro r hr; rw [hr]; exact ⟨_, rfl⟩
  | cons c cs ih =>
    obtain ⟨c', cs', hcs⟩ := snoc_eq_cons cs a
    rw [List.cons_append, hcs, alter_cons_cons]
    rw [walk_cons] at h
    cases hg : entryGet es c with
    | none => rw [hg] at h; cases h
    | some n =>
      cases n with
      | file data =>
        rw [hg] at h
        by_cases hc : cs = []
        · simp [hc] at h
        · simp [hc] at h
      | special =>
        rw [hg] at h
        by_cases hc : cs = []
        · simp [hc] at h
        · simp [hc] at h
      | dir sub =>
        rw [hg] at h
        simp only at h
        obtain ⟨h1, h2⟩ := ih sub h
        rw [hcs] at h1 h2
        constructor
        · intro e he; simp only; rw [h1 e he]
        · intro r hr
          obtain ⟨es', hes'⟩ := h2 r hr
          simp only; rw [hes']; exact ⟨_, rfl⟩

/-- A change of an entry leaves the other entries of the same directory as they were. -/
theorem alter_sibling (f : Option Node → Except Errno (Option Node)) (es es' : Entries)
    (P : List Str) (a b : Str) (h : alter f es (P ++ [a]) = .ok es') (hab : b ≠ a) :
    walk es' (P ++ [b]) = walk es (P ++ [b]) := by
  obtain ⟨E, r, h1, _, h3⟩ := alter_snoc_ok f es es' P a h
  rw [walk_snoc, walk_snoc, h1, h3]
  cases r with
  | none => simp only [applyEntry]; rw [entryGet_entryDel_ne _ _ _ hab]
  | some n => simp only [applyEntry]; rw [entryGet_entrySet_ne _ _ _ _ hab]

/-- After a successful change the entry is what `f` returned. -/
theorem alter_self (f : Option Node → Except Errno (Option Node)) (es es' : Entries)
    (P : List Str) (a : Str) (h : alter f es (P ++ [a]) = .ok es') :
    ∃ E r, walk es P = .ok (.dir E) ∧ f (entryGet E a) = .ok r ∧
      walk es' (P ++ [a]) = match r with
        | none => .error .ENOENT
        | some n => .ok n := by
  obtain ⟨E, r, h1, h2, h3⟩ := alter_snoc_ok f es es' P a h
  refine ⟨E, r, h1, h2, ?_⟩
  rw [walk_snoc, h3]
  cases r with
  | none => simp only [applyEntry]; rw [entryGet_entryDel_same]
  | some n => simp only [applyEntry]; rw [entryGet_entrySet_same]

theorem mkdirAllAt_cons (es : Entries) (c : Str) (cs : List Str) :
    mkdirAllAt es (c :: cs) = match entryGet es c with
      | none =>
        (match mkdirAllAt [] cs with
          | .error e => .error e
          | .ok sub => .ok (entrySet es c (.dir sub)))
      | some (.file _) => .error .ENOTDIR
      | some .special => .error .ENOTDIR
      | some (.dir sub) =>
        (match mkdirAllAt sub cs with
          | .error e => .error e
          | .ok sub' => .ok (entrySet es c (.dir sub'))) := by
  rw [mkdirAllAt]

theorem fileOf_walk_nil (q : List Str) : fileOf (walk [] q) = none := by
  cases q <;> rfl

/-- Creating directories neither creates, changes nor removes a regular file. -/
theorem mkdirAllAt_fileOf (es es' : Entries) (D : List Str) (h : mkdirAllAt es D = .ok es')
    (q : List Str) : fileOf (walk es' q) = fileOf (walk es q) := by
  induction D generalizing es es' q with
  | nil =>
    simp only [mkdirAllAt, Except.ok.injEq] at h
    rw [h]
  | cons c cs ih =>
    rw [mkdirAllAt_cons] at h
    cases hg : entryGet es c with
    | none =>
      rw [hg] at h
      simp only at h
      cases hm : mkdirAllAt [] cs with
      | error e => rw [hm] at h; cases h
      | ok sub =>
        rw [hm] at h
        simp only [Except.ok.injEq] at h
        subst h
        cases q with
        | nil => rfl
        | cons c2 qs =>
          by_cases hc : c2 = c
          · subst hc
            rw [walk_cons, walk_cons, entryGet_entrySet_same, hg]
            simp only
            rw [ih [] sub hm qs, fileOf_walk_nil]
            rfl
          · rw [walk_cons, walk_cons, entryGet_entrySet_ne _ _ _ _ hc]
    | some n =>
      cases n with
      | file data => rw [hg] at h; cases h
      | special => rw [hg] at h; cases h
      | dir sub0 =>
        rw [hg] at h
        simp only at h
        cases hm : mkdirAllAt sub0 cs with
        | error e => rw [hm] at h; cases h
        | ok sub =>
          rw [hm] at h
          simp only [Except.ok.injEq] at h
          subst h
          cases q with
          | nil => rfl
          | cons c2 qs =>
            by_cases hc : c2 = c
            · subst hc
              rw [walk_cons, walk_cons, entryGet_entrySet_same, hg]
              simp only
              exact ih sub0 sub hm qs
            · rw [walk_cons, walk_cons, entryGet_entrySet_ne _ _ _ _ hc]

theorem walk_nil_entries (q : List Str) (hq : q ≠ []) : walk [] q = .error .ENOENT := by
  cases q with
  | nil => exact absurd rfl hq
  | cons c cs => rfl

/-- Creating directories leaves every location as it was, except that a location on the way
to the directory created, absent or a directory before, is a directory afterwards. -/
theorem mkdirAllAt_walk_any (es es' : Entries) (D : List Str) (h : mkdirAllAt es D = .ok es')
    (q : List Str) :
    walk es' q = walk es q ∨
      ((walk es q = .error .ENOENT ∨ ∃ E0, walk es q = .ok (.dir E0)) ∧
        ∃ E, walk es' q = .ok (.dir E)) := by
  induction D generalizing es es' q with
  | nil =>
    simp only [mkdirAllAt, Except.ok.injEq] at h
    rw [h]; exact Or.inl rfl
  | cons c cs ih =>
    rw [mkdirAllAt_cons] at h
    cases q with
    | nil => exact Or.inr ⟨Or.inr ⟨es, rfl⟩, es', rfl⟩
    | cons c2 qs =>
      cases hg : entryGet es c with
      | none =>
        rw [hg] at h
        simp only at h
        cases hm : mkdirAllAt [] cs with
        | error e => rw [hm] at h; cases h
        | ok sub =>
          rw [hm] at h
          simp only [Except.ok.injEq] at h
          subst h
          by_cases hc : c2 = c
          · subst hc
            rw [walk_cons, walk_cons, entryGet_entrySet_same, hg]
            simp only
            rcases ih [] sub hm qs with e | ⟨_, E, hE⟩
            · by_cases hqs : qs = []
              · subst hqs
                exact Or.inr ⟨Or.inl trivial, sub, rfl⟩
              · rw [e, walk_nil_entries qs hqs]
                exact Or.inl rfl
            · exact Or.inr ⟨Or.inl trivial, E, hE⟩
          · rw [walk_cons, walk_cons, entryGet_entrySet_ne _ _ _ _ hc]
            exact Or.inl rfl
      | some n =>
        cases n with
        | file data => rw [hg] at h; cases h
        | special => rw [hg] at h; cases h
        | dir sub0 =>
          rw [hg] at h
          simp only at h
          cases hm : mkdirAllAt sub0 cs with
          | error e => rw [hm] at h; cases h
          | ok sub =>
            rw [hm] at h
            simp only [Except.ok.injEq] at h
            subst h
            by_cases hc : c2 = c
            · subst hc
              rw [walk_cons, walk_cons, entryGet_entrySet_same, hg]
              simp only
              exact ih sub0 sub hm qs
            · rw [walk_cons, walk_cons, entryGet_entrySet_ne _ _ _ _ hc]
              exact Or.inl rfl

theorem joinBase_ne_nil (dir c : Str) (hc : c ≠ []) : joinBase dir c ≠ [] := by
  unfold joinBase
  split
  · exact hc
  · simp

theorem Join_cons_nil (rest : List Str) : Join ([] :: rest) = Join rest := by
  simp [Join, List.dropWhile]

theorem Join_single (a : Str) (ha : a ≠ []) : Join [a] = Clean a := by
  simp [Join, List.dropWhile, ha, joinSlash]

theorem Join_pair (a b : Str) (ha : a ≠ []) : Join [a, b] = Clean (a ++ '/' :: b) := by
  simp [Join, List.dropWhile, ha, joinSlash]

theorem Join_triple (a b c : Str) (ha : a ≠ []) :
    Join [a, b, c] = Clean (a ++ '/' :: (b ++ '/' :: c)) := by
  simp [Join, List.dropWhile, ha, joinSlash]

theorem Join_dir_collection (dir c : Str) (hc : c ≠ []) : Join [dir, c] = Clean (joinBase dir c) := by
  unfold joinBase
  by_cases hd : dir = []
  · subst hd; rw [Join_cons_nil, Join_single c hc]; rfl
  · rw [Join_pair dir c hd, if_neg hd]

theorem Join_dir_collection_resource (dir c r : Str) (hc : c ≠ []) :
    Join [dir, c, r] = Clean (joinBase dir c ++ '/' :: r) := by
  unfold joinBase
  by_cases hd : dir = []
  · subst hd; rw [Join_cons_nil, Join_pair c r hc]; rfl
  · rw [Join_triple dir c r hd, if_neg hd]
    simp

theorem finalPath_eq (d : Driver) (c r : Str) (hc : c ≠ []) :
    finalPath d c r = Clean (joinBase d.dir c ++ '/' :: (r ++ jsonExt)) := by
  unfold finalPath
  rw [Join_dir_collection d.dir c hc, Join_pair _ _ (Clean_ne_nil _),
    Clean_Clean_append _ _ (joinBase_ne_nil d.dir c hc)]

theorem plain_lastSeg_jsonExt (r : Str) : Plain (lastSeg (r ++ jsonExt)) := by
  rw [lastSeg_append_of_not_mem r jsonExt not_mem_jsonExt]
  exact plain_append_jsonExt _

theorem lastSeg_finalPath (d : Driver) (c r : Str) (hc : c ≠ []) :
    lastSeg (finalPath d c r) = lastSeg r ++ jsonExt := by
  rw [finalPath_eq d c r hc, lastSeg_Clean, lastSeg_append_slash,
    lastSeg_append_of_not_mem r jsonExt not_mem_jsonExt]
  rw [lastSeg_append_slash]
  exact plain_lastSeg_jsonExt r

theorem finalPath_ne_nil (d : Driver) (c r : Str) (hc : c ≠ []) : finalPath d c r ≠ [] := by
  rw [finalPath_eq d c r hc]
  exact Clean_ne_nil _

/-- The file `Read` reads is the file `Write` writes when the final element of the resource
names an entry. -/
theorem finalPath_eq_record (d : Driver) (c r : Str) (hc : c ≠ []) (hr : Plain (lastSeg r)) :
    finalPath d c r = Join [d.dir, c, r] ++ jsonExt := by
  rw [finalPath_eq d c r hc, Join_dir_collection_resource d.dir c r hc]
  have h1 : lastSeg (joinBase d.dir c ++ '/' :: r) = lastSeg r := lastSeg_append_slash _ _
  have := Clean_append_ext (joinBase d.dir c ++ '/' :: r) jsonExt (h1 ▸ hr) not_mem_jsonExt
    (plain_append_jsonExt _)
  rw [← this]
  simp

/-- The path `Delete` probes is the record path of `Read` when the collection does not
begin with a separator. -/
theorem deleteTarget_eq (d : Driver) (c r : Str) (hc : c ≠ []) (hrt : isRooted c = false) :
    Join [d.dir, Join [c, r]] = Join [d.dir, c, r] := by
  have hB : c ++ '/' :: r ≠ [] := by simp
  have hBr : isRooted (c ++ '/' :: r) = false := by rw [isRooted_append c _ hc]; exact hrt
  rw [Join_pair c r hc]
  by_cases hd : d.dir = []
  · rw [hd, Join_cons_nil, Join_cons_nil, Join_single _ (Clean_ne_nil _), Clean_idem,
      Join_pair c r hc]
  · rw [Join_pair _ _ hd, Join_triple _ _ _ hd, Clean_append_Clean _ _ hd hB hBr]

/-- The final path and the temporary path of a write are different entries of one
directory. -/
theorem resolve_final_temp (d : Driver) (cwd : List Str) (c r : Str) (hc : c ≠ []) :
    resolve cwd (finalPath d c r)
      = resolveDir cwd (finalPath d c r) ++ [lastSeg r ++ jsonExt] ∧
    resolve cwd (tempPath d c r)
      = resolveDir cwd (finalPath d c r) ++ [lastSeg r ++ jsonExt ++ tmpExt] ∧
    lastSeg r ++ jsonExt ++ tmpExt ≠ lastSeg r ++ jsonExt := by
  have hl := lastSeg_finalPath d c r hc
  refine ⟨?_, ?_, ?_⟩
  · rw [resolve_of_plain_last cwd _ (hl ▸ plain_append_jsonExt _), hl]
  · unfold tempPath
    rw [resolve_append cwd _ tmpExt (finalPath_ne_nil d c r hc) not_mem_tmpExt
      (plain_append_tmpExt _), hl]
  · intro h
    have := congrArg List.length h
    simp [tmpExt] at this

/-! ## Lemmas on the filesystem calls -/

theorem lookup_eq_walk (fs : FS) (p : Str) (hp : p ≠ []) :
    lookup fs p = walk fs.root (resolve fs.cwd p) := by
  simp [lookup, hp]

theorem putFile_snoc (data : Str) (root : Entries) (P : List Str) (x : Str) :
    putFile data root (P ++ [x]) = alter (putEntry data) root (P ++ [x]) := by
  unfold putFile
  cases P <;> rfl

theorem putEntry_ok (data : Str) (cur r : Option Node) (h : putEntry data cur = .ok r) :
    r = some (.file data) := by
  cases cur with
  | none => simp only [putEntry, Except.ok.injEq] at h; exact h.symm
  | some n =>
    cases n with
    | file d => simp only [putEntry, Except.ok.injEq] at h; exact h.symm
    | special => simp [putEntry] at h
    | dir es => simp [putEntry] at h

/-- What `ioutil.WriteFile` can do: nothing (and then it fails), or store a file at the
path, with all the data if it succeeds. -/
theorem writeFile_cases (fault : Option WriteFault) (fs : FS) (p data : Str) (P : List Str)
    (x : Str) (hres : resolve fs.cwd p = P ++ [x]) :
    ((writeFile fault fs p data).2 = fs ∧ (writeFile fault fs p data).1 ≠ none) ∨
    ∃ E data' r, walk fs.root P = .ok (.dir E) ∧
      (writeFile fault fs p data).2 = { fs with root := r } ∧
      walk r P = .ok (.dir (entrySet E x (.file data'))) ∧
      alter (putEntry data') fs.root (P ++ [x]) = .ok r ∧
      ((writeFile fault fs p data).1 = none → data' = data) := by
  unfold writeFile
  by_cases hp : p = []
  · left; simp [hp]
  · rw [if_neg hp, hres, putFile_snoc]
    cases hput : alter (putEntry data) fs.root (P ++ [x]) with
    | error e => left; simp
    | ok r =>
      cases fault with
      | none =>
        right
        obtain ⟨E, r', h1, h2, h3⟩ := alter_snoc_ok _ _ _ _ _ hput
        have := putEntry_ok _ _ _ h2
        subst this
        exact ⟨E, data, r, h1, rfl, h3, hput, fun _ => rfl⟩
      | some wf =>
        cases wf with
        | openFails e => left; simp
        | shortWrite n e =>
          simp only
          rw [putFile_snoc]
          cases hput' : alter (putEntry (data.take n)) fs.root (P ++ [x]) with
          | error e' => left; simp
          | ok r' =>
            right
            obtain ⟨E, r'', h1, h2, h3⟩ := alter_snoc_ok _ _ _ _ _ hput'
            have := putEntry_ok _ _ _ h2
            subst this
            exact ⟨E, data.take n, r', h1, rfl, h3, hput', fun h => by simp at h⟩

theorem writeFile_cwd (fault : Option WriteFault) (fs : FS) (p data : Str) :
    (writeFile fault fs p data).2.cwd = fs.cwd := by
  unfold writeFile
  split
  · rfl
  · split
    · rfl
    · rfl
    · rfl
    · split <;> rfl

/-- Writing a file leaves the other entries of its directory as they were. -/
theorem writeFile_sibling (fault : Option WriteFault) (fs : FS) (p data : Str) (P : List Str)
    (x y : Str) (hres : resolve fs.cwd p = P ++ [x]) (hy : y ≠ x) :
    walk (writeFile fault fs p data).2.root (P ++ [y]) = walk fs.root (P ++ [y]) := by
  rcases writeFile_cases fault fs p data P x hres with ⟨h, _⟩ | ⟨E, data', r, _, h2, _, h4, _⟩
  · rw [h]
  · rw [h2]
    exact alter_sibling _ _ _ _ _ _ h4 hy

/-- After a successful write the directory of the file holds it with all the data. -/
theorem writeFile_ok (fault : Option WriteFault) (fs fs' : FS) (p data : Str) (P : List Str)
    (x : Str) (hres : resolve fs.cwd p = P ++ [x]) (h : writeFile fault fs p data = (none, fs')) :
    ∃ E, walk fs.root P = .ok (.dir E) ∧
      walk fs'.root P = .ok (.dir (entrySet E x (.file data))) ∧ fs'.cwd = fs.cwd := by
  have hc := writeFile_cwd fault fs p data
  rcases writeFile_cases fault fs p data P x hres with ⟨_, h2⟩ | ⟨E, data', r, h1, h2, h3, _, h5⟩
  · rw [h] at h2; exact absurd rfl h2
  · rw [h] at h2 h5 hc
    have := h5 rfl
    subst this
    simp only at h2 hc
    refine ⟨E, h1, ?_, hc⟩
    rw [h2]; exact h3

theorem rename_err (fault : Option Errno) (fs fs' : FS) (old new : Str) (e : Errno)
    (h : rename fault fs old new = (some e, fs')) : fs' = fs := by
  unfold rename at h
  split at h
  · simp only [Prod.mk.injEq] at h; exact h.2.symm
  · split at h
    · simp only [Prod.mk.injEq] at h; exact h.2.symm
    · split at h
      · simp only [Prod.mk.injEq] at h; exact h.2.symm
      · simp only at h
        split at h
        · simp only [Prod.mk.injEq] at h; exact h.2.symm
        · split at h
          · simp at h
          · split at h
            · simp only [Prod.mk.injEq] at h; exact h.2.symm
            · split at h
              · simp only [Prod.mk.injEq] at h; exact h.2.symm
              · simp at h

theorem placeEntry_file_ok (data : Str) (cur r : Option Node)
    (h : placeEntry (.file data) cur = .ok r) : r = some (.file data) := by
  cases cur with
  | none => simp only [placeEntry, Except.ok.injEq] at h; exact h.symm
  | some n =>
    cases n with
    | file d => simp only [placeEntry, Except.ok.injEq] at h; exact h.symm
    | special => simp only [placeEntry, Except.ok.injEq] at h; exact h.symm
    | dir es => simp only [placeEntry, Except.ok.injEq] at h; exact h.symm

/-- A successful rename of a regular file onto another name of the same directory: the
directory afterwards holds the file under the new name and nothing under the old one. -/
theorem rename_ok_sibling (fault : Option Errno) (fs fs' : FS) (old new : Str) (P : List Str)
    (x y data : Str) (h : rename fault fs old new = (none, fs'))
    (ho : resolve fs.cwd old = P ++ [x]) (hn : resolve fs.cwd new = P ++ [y]) (hxy : x ≠ y)
    (hold : lookup fs old = .ok (.file data)) :
    ∃ E, walk fs.root P = .ok (.dir E) ∧
      walk fs'.root P = .ok (.dir (entryDel (entrySet E y (.file data)) x)) ∧
      fs'.cwd = fs.cwd := by
  have hab : ¬ (P ++ [x] = P ++ [y]) := by
    intro e
    exact hxy (by simpa using e)
  have key : ∀ r, moveNode (.file data) fs.root (P ++ [x]) (P ++ [y]) = .ok r →
      ∃ E, walk fs.root P = .ok (.dir E) ∧
        walk r P = .ok (.dir (entryDel (entrySet E y (.file data)) x)) := by
    intro r hr
    unfold moveNode at hr
    cases h1 : alter (placeEntry (.file data)) fs.root (P ++ [y]) with
    | error e => rw [h1] at hr; cases hr
    | ok r1 =>
      rw [h1] at hr
      simp only at hr
      obtain ⟨E, r0, a1, a2, a3⟩ := alter_snoc_ok _ _ _ _ _ h1
      have := placeEntry_file_ok _ _ _ a2
      subst this
      obtain ⟨E1, r2, b1, b2, b3⟩ := alter_snoc_ok _ _ _ _ _ hr
      simp only [Except.ok.injEq] at b2
      subst b2
      rw [a3] at b1
      simp only [Except.ok.injEq, Node.dir.injEq] at b1
      subst b1
      exact ⟨E, a1, b3⟩
  unfold rename at h
  cases fault with
  | some e => simp at h
  | none =>
    simp only at h
    rw [hold] at h
    simp only at h
    rw [ho, hn] at h
    have hmode : (Node.file data).mode.isDir = false := rfl
    cases hnew : lookup fs new with
    | error e =>
      rw [hnew] at h
      simp only [hmode, Bool.false_and, Bool.false_eq_true, if_false, hab] at h
      split at h
      · simp at h
      · split at h
        · simp at h
        · rename_i r hr
          simp only [Prod.mk.injEq, true_and] at h
          obtain ⟨E, e1, e2⟩ := key r hr
          subst h
          exact ⟨E, e1, e2, rfl⟩
    | ok n =>
      cases n with
      | dir es => rw [hnew] at h; simp at h
      | file d =>
        rw [hnew] at h
        simp only [hmode, Bool.false_and, Bool.false_eq_true, if_false, hab] at h
        split at h
        · simp at h
        · split at h
          · simp at h
          · rename_i r hr
            simp only [Prod.mk.injEq, true_and] at h
            obtain ⟨E, e1, e2⟩ := key r hr
            subst h
            exact ⟨E, e1, e2, rfl⟩
      | special =>
        rw [hnew] at h
        simp only [hmode, Bool.false_and, Bool.false_eq_true, if_false, hab] at h
        split at h
        · simp at h
        · split at h
          · simp at h
          · rename_i r hr
            simp only [Prod.mk.injEq, true_and] at h
            obtain ⟨E, e1, e2⟩ := key r hr
            subst h
            exact ⟨E, e1, e2, rfl⟩

theorem mkdirAll_cwd (fault : Option Errno) (fs : FS) (p : Str) :
    (mkdirAll fault fs p).2.cwd = fs.cwd := by
  unfold mkdirAll
  split
  · rfl
  · split
    · rfl
    · split <;> rfl

/-- The call `os.MkdirAll` neither creates, changes nor removes a regular file. -/
theorem mkdirAll_fileAt (fault : Option Errno) (fs : FS) (p q : Str) :
    fileAt (mkdirAll fault fs p).2 q = fileAt fs q := by
  unfold mkdirAll
  split
  · rfl
  · split
    · rfl
    · split
      · rfl
      · rename_i r hr
        unfold fileAt lookup
        simp only
        split
        · rfl
        · exact mkdirAllAt_fileOf _ _ _ hr _

/-- The call `os.MkdirAll` leaves every path as it was, except that a path on the way to the
directory created, absent or a directory before, is a directory afterwards. -/
theorem mkdirAll_lookup (fault : Option Errno) (fs : FS) (p q : Str) :
    lookup (mkdirAll fault fs p).2 q = lookup fs q ∨
      ((lookup fs q = .error .ENOENT ∨ ∃ E0, lookup fs q = .ok (.dir E0)) ∧
        ∃ E, lookup (mkdirAll fault fs p).2 q = .ok (.dir E)) := by
  unfold mkdirAll
  split
  · exact Or.inl rfl
  · split
    · exact Or.inl rfl
    · split
      · exact Or.inl rfl
      · rename_i r hr
        by_cases hq : q = []
        · subst hq; exact Or.inl rfl
        · rw [lookup_eq_walk _ q hq, lookup_eq_walk _ q hq]
          exact mkdirAllAt_walk_any _ _ _ hr _

/-! ## Lemmas on the driver -/

theorem getOrCreateMutex_dir (d : Driver) (w : World) (c : Str) :
    (d.getOrCreateMutex w c).2.1.dir = d.dir := by
  unfold Driver.getOrCreateMutex
  split <;> rfl

theorem getOrCreateMutex_fs (d : Driver) (w : World) (c : Str) :
    (d.getOrCreateMutex w c).2.2.fs = w.fs := by
  unfold Driver.getOrCreateMutex
  split <;> rfl

theorem finalPath_congr (d d' : Driver) (c r : Str) (h : d'.dir = d.dir) :
    finalPath d' c r = finalPath d c r := by
  unfold finalPath; rw [h]

theorem writeLocked_congr {V : Type} (codec : Codec V) (io : IOFaults) (d d' : Driver) (fs : FS)
    (c r : Str) (v : V) (h : d'.dir = d.dir) :
    writeLocked codec io d' fs c r v = writeLocked codec io d fs c r v := by
  unfold writeLocked; rw [h]

theorem deleteLocked_congr (d d' : Driver) (fs : FS) (p : Str) (h : d'.dir = d.dir) :
    deleteLocked d' fs p = deleteLocked d fs p := by
  unfold deleteLocked; rw [h]

/-- The result and the filesystem of a `Write` with valid identifiers are those of its
locked part. -/
theorem Write_valid {V : Type} (codec : Codec V) (io : IOFaults) (d : Driver) (w : World)
    (c r : Str) (v : V) (hc : c ≠ []) (hr : r ≠ []) :
    (d.Write codec io w c r v).ret = (writeLocked codec io d w.fs c r v).1 ∧
    (d.Write codec io w c r v).world.fs = (writeLocked codec io d w.fs c r v).2 ∧
    (d.Write codec io w c r v).drv = (d.getOrCreateMutex w c).2.1 := by
  have e := writeLocked_congr codec io d (d.getOrCreateMutex w c).2.1 w.fs c r v
    (getOrCreateMutex_dir d w c)
  have f := getOrCreateMutex_fs d w c
  unfold Driver.Write
  rw [if_neg hc, if_neg hr]
  simp only [World.lock, World.unlock]
  rw [f, e]
  refine ⟨?_, ?_, ?_⟩ <;> first | rfl | trivial

theorem Write_drv_dir {V : Type} (codec : Codec V) (io : IOFaults) (d : Driver) (w : World)
    (c r : Str) (v : V) : (d.Write codec io w c r v).drv.dir = d.dir := by
  unfold Driver.Write
  split
  · rfl
  · split
    · rfl
    · exact getOrCreateMutex_dir d w c

theorem Write_invalid {V : Type} (codec : Codec V) (io : IOFaults) (d : Driver) (w : World)
    (c r : Str) (v : V) (h : c = [] ∨ r = []) :
    (∃ e, (d.Write codec io w c r v).ret = .error e) ∧
    (d.Write codec io w c r v).world = w ∧ (d.Write codec io w c r v).drv = d := by
  unfold Driver.Write
  by_cases hc : c = []
  · rw [if_pos hc]; exact ⟨⟨_, rfl⟩, rfl, rfl⟩
  · have hr : r = [] := h.resolve_left hc
    rw [if_neg hc, if_pos hr]; exact ⟨⟨_, rfl⟩, rfl, rfl⟩

theorem Write_ok_valid {V : Type} (codec : Codec V) (io : IOFaults) (d : Driver) (w : World)
    (c r : Str) (v : V) (h : (d.Write codec io w c r v).ret = .ok ()) : c ≠ [] ∧ r ≠ [] := by
  constructor
  · intro hc
    obtain ⟨⟨e, he⟩, _⟩ := Write_invalid codec io d w c r v (Or.inl hc)
    rw [he] at h; cases h
  · intro hr
    obtain ⟨⟨e, he⟩, _⟩ := Write_invalid codec io d w c r v (Or.inr hr)
    rw [he] at h; cases h

/-- The result of a `Read` with valid identifiers: the decoded content of the record path
with the extension. -/
theorem Read_valid {V : Type} (codec : Codec V) (d : Driver) (w : World) (c r : Str)
    (hc : c ≠ []) (hr : r ≠ []) :
    (d.Read codec w c r).ret =
      match readFile w.fs (Join [d.dir, c, r] ++ jsonExt) with
      | .error err => .error (.os err)
      | .ok b => codec.unmarshal b := by
  unfold Driver.Read
  rw [if_neg hc, if_neg hr]
  simp only [stat]
  split <;> simp_all

theorem readFile_of_lookup (fs : FS) (p data : Str) (h : lookup fs p = .ok (.file data)) :
    readFile fs p = .ok data := by
  unfold readFile; rw [h]

theorem readFile_of_lookup_error (fs : FS) (p : Str) (e : Errno) (h : lookup fs p = .error e) :
    readFile fs p = .error e := by
  unfold readFile; rw [h]

/-- A successful locked write: the value was encoded, the collection directory was made,
and the directory of the record afterwards holds the record under its final name and
nothing under the temporary name. -/
theorem writeLocked_ok {V : Type} (codec : Codec V) (io : IOFaults) (d : Driver) (fs fs' : FS)
    (c r : Str) (v : V) (hc : c ≠ [])
    (h : writeLocked codec io d fs c r v = (.ok (), fs')) :
    ∃ b fs1 E1, codec.marshalIndent v = .ok b ∧
      mkdirAll io.mkdirAll fs (Join [d.dir, c]) = (none, fs1) ∧
      walk fs1.root (resolveDir fs.cwd (finalPath d c r)) = .ok (.dir E1) ∧
      walk fs'.root (resolveDir fs.cwd (finalPath d c r)) = .ok (.dir
        (entryDel (entrySet (entrySet E1 (lastSeg r ++ jsonExt ++ tmpExt) (.file (b ++ ['\n'])))
          (lastSeg r ++ jsonExt) (.file (b ++ ['\n']))) (lastSeg r ++ jsonExt ++ tmpExt))) ∧
      fs'.cwd = fs.cwd := by
  obtain ⟨hf, ht, hne⟩ := resolve_final_temp d fs.cwd c r hc
  simp only [writeLocked] at h
  split at h
  · simp at h
  · rename_i fs1 hm
    split at h
    · simp at h
    · rename_i b hb
      split at h
      · simp at h
      · rename_i fs2 hw
        split at h
        · simp at h
        · rename_i fs3 hrn
          simp only [Prod.mk.injEq, true_and] at h
          subst h
          have c1 : fs1.cwd = fs.cwd := by
            have := mkdirAll_cwd io.mkdirAll fs (Join [d.dir, c])
            rw [hm] at this; exact this
          have hf1 : resolve fs1.cwd (finalPath d c r) = _ := c1 ▸ hf
          have ht1 : resolve fs1.cwd (tempPath d c r) = _ := c1 ▸ ht
          obtain ⟨E1, w1, w2, c2⟩ := writeFile_ok _ _ _ _ _ _ _ ht1 hw
          have htne : tempPath d c r ≠ [] := by simp [tempPath, tmpExt]
          have hold : lookup fs2 (tempPath d c r) = .ok (.file (b ++ ['\n'])) := by
            rw [lookup_eq_walk _ _ htne, c2, ht1, walk_snoc, w2]
            simp only
            rw [entryGet_entrySet_same]
          obtain ⟨E2, r1, r2, c3⟩ := rename_ok_sibling _ _ _ _ _ _ _ _ _ hrn
            (c2 ▸ ht1) (c2 ▸ hf1) hne hold
          rw [c2, w2] at r1
          simp only [Except.ok.injEq, Node.dir.injEq] at r1
          subst r1
          rw [c2, c1] at r2
          rw [c1] at w1
          exact ⟨b, fs1, E1, hb, hm, w1, r2, by rw [c3, c2, c1]⟩

/-- After a successful locked write the final path holds the encoded value followed by a
newline, and the temporary path does not exist. -/
theorem writeLocked_ok_lookup {V : Type} (codec : Codec V) (io : IOFaults) (d : Driver)
    (fs fs' : FS) (c r : Str) (v : V) (hc : c ≠ [])
    (h : writeLocked codec io d fs c r v = (.ok (), fs')) :
    ∃ b, codec.marshalIndent v = .ok b ∧
      lookup fs' (finalPath d c r) = .ok (.file (b ++ ['\n'])) ∧
      lookup fs' (tempPath d c r) = .error .ENOENT := by
  obtain ⟨hf, ht, hne⟩ := resolve_final_temp d fs.cwd c r hc
  obtain ⟨b, fs1, E1, hb, _, _, hw, hcwd⟩ := writeLocked_ok codec io d fs fs' c r v hc h
  have htne : tempPath d c r ≠ [] := by simp [tempPath, tmpExt]
  refine ⟨b, hb, ?_, ?_⟩
  · rw [lookup_eq_walk _ _ (finalPath_ne_nil d c r hc), hcwd, hf, walk_snoc, hw]
    simp only
    rw [entryGet_entryDel_ne _ _ _ (Ne.symm hne), entryGet_entrySet_same]
  · rw [lookup_eq_walk _ _ htne, hcwd, ht, walk_snoc, hw]
    simp only
    rw [entryGet_entryDel_same]

/-- A locked write that fails leaves the content of the record file as it was. -/
theorem writeLocked_err_fileAt {V : Type} (codec : Codec V) (io : IOFaults) (d : Driver)
    (fs fs' : FS) (c r : Str) (v : V) (hc : c ≠ []) (e : Error)
    (h : writeLocked codec io d fs c r v = (.error e, fs')) :
    fileAt fs' (finalPath d c r) = fileAt fs (finalPath d c r) := by
  obtain ⟨hf, ht, hne⟩ := resolve_final_temp d fs.cwd c r hc
  have hfn := finalPath_ne_nil d c r hc
  have hm := mkdirAll_fileAt io.mkdirAll fs (Join [d.dir, c]) (finalPath d c r)
  have c1 := mkdirAll_cwd io.mkdirAll fs (Join [d.dir, c])
  simp only [writeLocked] at h
  split at h
  · rename_i err fs1 hm1
    rw [hm1] at hm
    simp only [Prod.mk.injEq] at h
    rw [← h.2]; exact hm
  · rename_i fs1 hm1
    rw [hm1] at hm c1
    simp only at hm c1
    split at h
    · simp only [Prod.mk.injEq] at h
      rw [← h.2]; exact hm
    · rename_i b hb
      have hsib := writeFile_sibling io.writeFile fs1 (tempPath d c r) (b ++ ['\n']) _ _
        (lastSeg r ++ jsonExt) (c1 ▸ ht) (Ne.symm hne)
      have c2 := writeFile_cwd io.writeFile fs1 (tempPath d c r) (b ++ ['\n'])
      have key : ∀ fs2, writeFile io.writeFile fs1 (tempPath d c r) (b ++ ['\n']) = fs2 →
          fileAt fs2.2 (finalPath d c r) = fileAt fs (finalPath d c r) := by
        intro fs2 h2
        rw [h2] at hsib c2
        rw [c1] at hsib
        rw [← hm]
        unfold fileAt
        rw [lookup_eq_walk _ _ hfn, lookup_eq_walk _ _ hfn, c2, c1, hf, hsib]
      split at h
      · rename_i err fs2 hw
        simp only [Prod.mk.injEq] at h
        rw [← h.2]; exact key _ hw
      · rename_i fs2 hw
        split at h
        · rename_i err fs3 hrn
          simp only [Prod.mk.injEq] at h
          rw [← h.2, rename_err _ _ _ _ _ _ hrn]
          exact key _ hw
        · simp at h

/-- A locked write that fails leaves the record path as the directory creation left it. -/
theorem writeLocked_err_lookup {V : Type} (codec : Codec V) (io : IOFaults) (d : Driver)
    (fs fs' : FS) (c r : Str) (v : V) (hc : c ≠ []) (e : Error)
    (h : writeLocked codec io d fs c r v = (.error e, fs')) :
    lookup fs' (finalPath d c r)
      = lookup (mkdirAll io.mkdirAll fs (Join [d.dir, c])).2 (finalPath d c r) := by
  obtain ⟨hf, ht, hne⟩ := resolve_final_temp d fs.cwd c r hc
  have hfn := finalPath_ne_nil d c r hc
  have c1 := mkdirAll_cwd io.mkdirAll fs (Join [d.dir, c])
  simp only [writeLocked] at h
  split at h
  · rename_i err fs1 hm1
    rw [hm1]
    simp only [Prod.mk.injEq] at h
    rw [← h.2]
  · rename_i fs1 hm1
    rw [hm1] at c1 ⊢
    simp only at c1 ⊢
    split at h
    · simp only [Prod.mk.injEq] at h
      rw [← h.2]
    · rename_i b hb
      have hsib := writeFile_sibling io.writeFile fs1 (tempPath d c r) (b ++ ['\n']) _ _
        (lastSeg r ++ jsonExt) (c1 ▸ ht) (Ne.symm hne)
      have c2 := writeFile_cwd io.writeFile fs1 (tempPath d c r) (b ++ ['\n'])
      have key : ∀ fs2, writeFile io.writeFile fs1 (tempPath d c r) (b ++ ['\n']) = fs2 →
          lookup fs2.2 (finalPath d c r) = lookup fs1 (finalPath d c r) := by
        intro fs2 h2
        rw [h2] at hsib c2
        rw [c1] at hsib
        rw [lookup_eq_walk _ _ hfn, lookup_eq_walk _ _ hfn, c2, c1, hf, hsib]
      split at h
      · rename_i err fs2 hw
        simp only [Prod.mk.injEq] at h
        rw [← h.2]; exact key _ hw
      · rename_i fs2 hw
        split at h
        · rename_i err fs3 hrn
          simp only [Prod.mk.injEq] at h
          rw [← h.2, rename_err _ _ _ _ _ _ hrn]
          exact key _ hw
        · simp at h

/-! ## Claims on `Write` and on the identifiers -/

theorem boolCodec_roundTrip : boolCodec.RoundTrip := by
  intro v b h
  cases v with
  | true =>
    simp only [boolCodec, if_true, Except.ok.injEq] at h
    subst h; rfl
  | false =>
    simp only [boolCodec, Bool.false_eq_true, if_false, Except.ok.injEq] at h
    subst h; rfl

/-- C1, counterexample: with the resource `..` a `Write` succeeds (it stores the file
`db/users/...json`) and the `Read` that follows fails, because it reads `db.json`. -/
theorem write_then_read_dotdot :
    (sampleDriver.Write boolCodec IOFaults.none sampleWorld (str "users") (str "..") true).ret
      = .ok () ∧
    ((sampleDriver.Write boolCodec IOFaults.none sampleWorld (str "users") (str "..") true).drv.Read
      boolCodec
      (sampleDriver.Write boolCodec IOFaults.none sampleWorld (str "users") (str "..") true).world
      (str "users") (str "..")).ret = .error (.os .ENOENT) := by
  constructor <;> rfl

/-- C1, amended: when the final element of the resource names an entry (it is not empty, `.`
or `..`), a successful `Write(c, r, v)` is followed by a `Read(c, r)` that reads exactly the
bytes stored, the encoding of `v` and a newline, and returns what they decode to; with a
codec that decodes what it encodes, `Read` succeeds with `v`. -/
theorem write_then_read {V : Type} (codec : Codec V) (io : IOFaults) (d : Driver) (w : World)
    (c r : Str) (v : V) (hr : Plain (lastSeg r))
    (hw : (d.Write codec io w c r v).ret = .ok ()) :
    ∃ b, codec.marshalIndent v = .ok b ∧
      readFile (d.Write codec io w c r v).world.fs (Join [d.dir, c, r] ++ jsonExt)
        = .ok (b ++ ['\n']) ∧
      ((d.Write codec io w c r v).drv.Read codec (d.Write codec io w c r v).world c r).ret
        = codec.unmarshal (b ++ ['\n']) ∧
      (codec.RoundTrip →
        ((d.Write codec io w c r v).drv.Read codec (d.Write codec io w c r v).world c r).ret
          = .ok v) := by
  obtain ⟨hc, hrn⟩ := Write_ok_valid codec io d w c r v hw
  obtain ⟨h1, h2, _⟩ := Write_valid codec io d w c r v hc hrn
  have hdir := Write_drv_dir codec io d w c r v
  rw [h1] at hw
  have hwl : writeLocked codec io d w.fs c r v = (.ok (), (d.Write codec io w c r v).world.fs) := by
    rw [h2, ← hw]
  obtain ⟨b, hb, hl, _⟩ := writeLocked_ok_lookup codec io d w.fs _ c r v hc hwl
  rw [finalPath_eq_record d c r hc hr] at hl
  have hrd := readFile_of_lookup _ _ _ hl
  have hread : ((d.Write codec io w c r v).drv.Read codec (d.Write codec io w c r v).world c r).ret
      = codec.unmarshal (b ++ ['\n']) := by
    rw [Read_valid codec _ _ c r hc hrn, hdir, hrd]
  exact ⟨b, hb, hrd, hread, fun hrt => by rw [hread]; exact hrt v b hb⟩

/-- C1, amended, at a concrete input: writing `true` as `users/alice` and reading it back. -/
theorem write_then_read_witness :
    Plain (lastSeg (str "alice")) ∧
    (sampleDriver.Write boolCodec IOFaults.none sampleWorld (str "users") (str "alice") true).ret
      = .ok () ∧
    ((sampleDriver.Write boolCodec IOFaults.none sampleWorld (str "users") (str "alice") true).drv.Read
      boolCodec
      (sampleDriver.Write boolCodec IOFaults.none sampleWorld (str "users") (str "alice") true).world
      (str "users") (str "alice")).ret = .ok true :=
  ⟨by decide, rfl,
    let ⟨_, _, _, _, h⟩ := write_then_read boolCodec IOFaults.none sampleDriver sampleWorld
      (str "users") (str "alice") true (by decide) rfl
    h boolCodec_roundTrip⟩

/-- C2: after two successful writes of one resource, the record path holds a regular file
whose content is exactly the encoding of the second value followed by one newline, and the
temporary path does not exist. -/
theorem write_twice {V : Type} (codec : Codec V) (io1 io2 : IOFaults) (d : Driver) (w : World)
    (c r : Str) (v1 v2 : V)
    (h1 : (d.Write codec io1 w c r v1).ret = .ok ())
    (h2 : ((d.Write codec io1 w c r v1).drv.Write codec io2
      (d.Write codec io1 w c r v1).world c r v2).ret = .ok ()) :
    ∃ b2, codec.marshalIndent v2 = .ok b2 ∧
      lookup ((d.Write codec io1 w c r v1).drv.Write codec io2
        (d.Write codec io1 w c r v1).world c r v2).world.fs (finalPath d c r)
        = .ok (.file (b2 ++ ['\n'])) ∧
      lookup ((d.Write codec io1 w c r v1).drv.Write codec io2
        (d.Write codec io1 w c r v1).world c r v2).world.fs (tempPath d c r)
        = .error .ENOENT := by
  obtain ⟨hc, hrn⟩ := Write_ok_valid codec io1 d w c r v1 h1
  have hdir := Write_drv_dir codec io1 d w c r v1
  obtain ⟨e1, e2, _⟩ := Write_valid codec io2 (d.Write codec io1 w c r v1).drv
    (d.Write codec io1 w c r v1).world c r v2 hc hrn
  rw [e1] at h2
  have hwl : writeLocked codec io2 (d.Write codec io1 w c r v1).drv
      (d.Write codec io1 w c r v1).world.fs c r v2 = (.ok (),
        ((d.Write codec io1 w c r v1).drv.Write codec io2
          (d.Write codec io1 w c r v1).world c r v2).world.fs) := by
    rw [e2, ← h2]
  obtain ⟨b, hb, hl, ht⟩ := writeLocked_ok_lookup codec io2 _ _ _ c r v2 hc hwl
  unfold tempPath at ht ⊢
  rw [finalPath_congr _ _ c r hdir] at hl ht
  exact ⟨b, hb, hl, ht⟩

/-- C2 at a concrete input: `true` and then `false` written as `users/alice`. -/
theorem write_twice_witness :
    ∃ b2, boolCodec.marshalIndent false = .ok b2 ∧
      lookup ((sampleDriver.Write boolCodec IOFaults.none sampleWorld (str "users") (str "alice")
        true).drv.Write boolCodec IOFaults.none
        (sampleDriver.Write boolCodec IOFaults.none sampleWorld (str "users") (str "alice")
          true).world (str "users") (str "alice") false).world.fs
        (finalPath sampleDriver (str "users") (str "alice")) = .ok (.file (b2 ++ ['\n'])) ∧
      lookup ((sampleDriver.Write boolCodec IOFaults.none sampleWorld (str "users") (str "alice")
        true).drv.Write boolCodec IOFaults.none
        (sampleDriver.Write boolCodec IOFaults.none sampleWorld (str "users") (str "alice")
          true).world (str "users") (str "alice") false).world.fs
        (tempPath sampleDriver (str "users") (str "alice")) = .error .ENOENT :=
  write_twice boolCodec IOFaults.none IOFaults.none sampleDriver sampleWorld (str "users")
    (str "alice") true false rfl rfl

/-- C3, counterexample: with the collection `users.json` and the resource `../users` the
record path `db/users.json` is also the collection directory.  The record path does not
exist; `Write` creates the directory, writes the temporary file and fails in the rename
(the target is a directory); afterwards the record path is a directory. -/
theorem write_error_creates_directory :
    lookup sampleWorld.fs (finalPath sampleDriver (str "users.json") (str "../users"))
      = .error .ENOENT ∧
    (sampleDriver.Write boolCodec IOFaults.none sampleWorld (str "users.json") (str "../users")
      true).ret = .error (.os .EEXIST) ∧
    lookup (sampleDriver.Write boolCodec IOFaults.none sampleWorld (str "users.json")
      (str "../users") true).world.fs
      (finalPath sampleDriver (str "users.json") (str "../users")) = .ok (.dir []) := by
  refine ⟨?_, ?_, ?_⟩ <;> rfl

/-- C3, amended: a `Write` that returns an error, whatever the reason (identifiers, encoding,
directory creation, a failed or partial write of the temporary file, rename), leaves the
content of the record file as it was: the same bytes if it was a regular file, and still no
regular file if there was none.  The record path itself is exactly as before, or else it is
a directory afterwards and was absent or a directory before (the directory creation of the
call went through it). -/
theorem write_error_keeps_record {V : Type} (codec : Codec V) (io : IOFaults) (d : Driver)
    (w : World) (c r : Str) (v : V) (e : Error)
    (h : (d.Write codec io w c r v).ret = .error e) :
    fileAt (d.Write codec io w c r v).world.fs (finalPath d c r) = fileAt w.fs (finalPath d c r) ∧
    (lookup (d.Write codec io w c r v).world.fs (finalPath d c r) = lookup w.fs (finalPath d c r) ∨
      ((lookup w.fs (finalPath d c r) = .error .ENOENT ∨
          ∃ E0, lookup w.fs (finalPath d c r) = .ok (.dir E0)) ∧
        ∃ E, lookup (d.Write codec io w c r v).world.fs (finalPath d c r) = .ok (.dir E))) := by
  by_cases hv : c = [] ∨ r = []
  · rw [(Write_invalid codec io d w c r v hv).2.1]
    exact ⟨rfl, Or.inl rfl⟩
  · have hc : c ≠ [] := fun x => hv (Or.inl x)
    have hr : r ≠ [] := fun x => hv (Or.inr x)
    obtain ⟨h1, h2, _⟩ := Write_valid codec io d w c r v hc hr
    rw [h1] at h
    rw [h2]
    have hwl : writeLocked codec io d w.fs c r v
        = (.error e, (writeLocked codec io d w.fs c r v).2) := Prod.ext h rfl
    refine ⟨writeLocked_err_fileAt codec io d w.fs _ c r v hc e hwl, ?_⟩
    rw [writeLocked_err_lookup codec io d w.fs _ c r v hc e hwl]
    exact mkdirAll_lookup io.mkdirAll w.fs (Join [d.dir, c]) (finalPath d c r)

/-- C3, amended, at a concrete input: the record `users/alice` holds `true`; a second write,
of `false`, runs out of space after two bytes of the temporary file.  It fails and the
record still holds `true`. -/
theorem write_error_keeps_record_witness :
    ((sampleDriver.Write boolCodec IOFaults.none sampleWorld (str "users") (str "alice")
        true).drv.Write boolCodec
        { mkdirAll := none, writeFile := some (.shortWrite 2 .ENOSPC), rename := none }
        (sampleDriver.Write boolCodec IOFaults.none sampleWorld (str "users") (str "alice")
          true).world (str "users") (str "alice") false).ret = .error (.os .ENOSPC) ∧
    fileAt ((sampleDriver.Write boolCodec IOFaults.none sampleWorld (str "users") (str "alice")
        true).drv.Write boolCodec
        { mkdirAll := none, writeFile := some (.shortWrite 2 .ENOSPC), rename := none }
        (sampleDriver.Write boolCodec IOFaults.none sampleWorld (str "users") (str "alice")
          true).world (str "users") (str "alice") false).world.fs
      (finalPath (sampleDriver.Write boolCodec IOFaults.none sampleWorld (str "users")
        (str "alice") true).drv (str "users") (str "alice"))
      = fileAt (sampleDriver.Write boolCodec IOFaults.none sampleWorld (str "users") (str "alice")
          true).world.fs
        (finalPath (sampleDriver.Write boolCodec IOFaults.none sampleWorld (str "users")
          (str "alice") true).drv (str "users") (str "alice")) ∧
    fileAt (sampleDriver.Write boolCodec IOFaults.none sampleWorld (str "users") (str "alice")
          true).world.fs
        (finalPath (sampleDriver.Write boolCodec IOFaults.none sampleWorld (str "users")
          (str "alice") true).drv (str "users") (str "alice"))
      = some (str "true\n") :=
  ⟨rfl, (write_error_keeps_record boolCodec
    { mkdirAll := none, writeFile := some (.shortWrite 2 .ENOSPC), rename := none }
    (sampleDriver.Write boolCodec IOFaults.none sampleWorld (str "users") (str "alice") true).drv
    (sampleDriver.Write boolCodec IOFaults.none sampleWorld (str "users") (str "alice") true).world
    (str "users") (str "alice") false (.os .ENOSPC) rfl).1, rfl⟩

/-- C4: `Write`, `Read` and `Delete` with an empty collection or an empty resource, and
`ReadAll` with an empty collection, return an error and leave the driver (its lock
registry) and the world (the filesystem, the lock log) exactly as they were. -/
theorem empty_identifier_rejected {V : Type} (codec : Codec V) (io : IOFaults) (d : Driver)
    (w : World) (c r : Str) (v : V) :
    Rejected (d.Write codec io w [] r v) d w ∧ Rejected (d.Write codec io w c [] v) d w ∧
    Rejected (d.Read codec w [] r) d w ∧ Rejected (d.Read codec w c []) d w ∧
    Rejected (d.Delete w [] r) d w ∧ Rejected (d.Delete w c []) d w ∧
    Rejected (d.ReadAll w []) d w := by
  refine ⟨?_, ?_, ?_, ?_, ?_, ?_, ?_⟩
  · exact ⟨⟨_, rfl⟩, rfl, rfl⟩
  · unfold Driver.Write
    by_cases hc : c = []
    · rw [if_pos hc]; exact ⟨⟨_, rfl⟩, rfl, rfl⟩
    · rw [if_neg hc]; exact ⟨⟨_, rfl⟩, rfl, rfl⟩
  · exact ⟨⟨_, rfl⟩, rfl, rfl⟩
  · unfold Driver.Read
    by_cases hc : c = []
    · rw [if_pos hc]; exact ⟨⟨_, rfl⟩, rfl, rfl⟩
    · rw [if_neg hc]; exact ⟨⟨_, rfl⟩, rfl, rfl⟩
  · exact ⟨⟨_, rfl⟩, rfl, rfl⟩
  · unfold Driver.Delete
    by_cases hc : c = []
    · rw [if_pos hc]; exact ⟨⟨_, rfl⟩, rfl, rfl⟩
    · rw [if_neg hc]; exact ⟨⟨_, rfl⟩, rfl, rfl⟩
  · exact ⟨⟨_, rfl⟩, rfl, rfl⟩

/-! ## Lemmas on removal and on `Delete` -/

theorem walk_snoc_ok (es : Entries) (P : List Str) (a : Str) (n : Node)
    (h : walk es (P ++ [a]) = .ok n) :
    ∃ E, walk es P = .ok (.dir E) ∧ entryGet E a = some n := by
  rw [walk_snoc] at h
  cases hw : walk es P with
  | error e => rw [hw] at h; cases h
  | ok m =>
    cases m with
    | file data => rw [hw] at h; cases h
    | special => rw [hw] at h; cases h
    | dir E =>
      rw [hw] at h
      simp only at h
      cases hg : entryGet E a with
      | none => rw [hg] at h; cases h
      | some n' =>
        rw [hg] at h
        simp only [Except.ok.injEq] at h
        exact ⟨E, rfl, by rw [hg, h]⟩

/-- When an entry of a directory exists, looking up another name in the directory finds
something or reports that it does not exist. -/
theorem walk_sibling_cases (es : Entries) (P : List Str) (a b : Str) (n : Node)
    (h : walk es (P ++ [a]) = .ok n) :
    (∃ m, walk es (P ++ [b]) = .ok m) ∨ walk es (P ++ [b]) = .error .ENOENT := by
  obtain ⟨E, hE, _⟩ := walk_snoc_ok es P a n h
  rw [walk_snoc, hE]
  simp only
  cases entryGet E b with
  | none => exact Or.inr rfl
  | some m => exact Or.inl ⟨m, rfl⟩

theorem lastSeg_def (p : Str) : (splitSlash p).getLastD [] = lastSeg p := rfl

/-- On a path whose final element names an entry, `os.RemoveAll` removes that entry. -/
theorem removeAll_plain (fs : FS) (p : Str) (hp : Plain (lastSeg p)) :
    removeAll fs p = match alter (fun _ => .ok none) fs.root (resolve fs.cwd p) with
      | .ok r => (none, { fs with root := r })
      | .error .ENOENT => (none, fs)
      | .error e => (some e, fs) := by
  have hne := ne_nil_of_plain_lastSeg p hp
  have hd := endsWithDot_eq_false p hp.2.1
  have hres := resolve_of_plain_last fs.cwd p hp
  have habs : resolve fs.cwd p ≠ [] := by rw [hres]; simp
  unfold removeAll
  rw [if_neg hne, hd]
  simp only [Bool.false_eq_true, if_false]
  rw [if_neg habs, lastSeg_def, if_neg hp.2.2]

/-- Removing a path that exists succeeds, and afterwards the path does not exist. -/
theorem removeAll_exists (fs : FS) (p : Str) (n : Node) (hp : Plain (lastSeg p))
    (h : lookup fs p = .ok n) :
    ∃ fs', removeAll fs p = (none, fs') ∧ fs'.cwd = fs.cwd ∧
      lookup fs' p = .error .ENOENT := by
  have hne := ne_nil_of_plain_lastSeg p hp
  have hres := resolve_of_plain_last fs.cwd p hp
  rw [lookup_eq_walk fs p hne, hres] at h
  obtain ⟨E, hE, _⟩ := walk_snoc_ok _ _ _ _ h
  obtain ⟨_, hok⟩ := alter_snoc_of (fun _ => .ok none) fs.root _ (lastSeg p) E hE
  obtain ⟨es', hes'⟩ := hok none rfl
  obtain ⟨E', r, _, hr, hw⟩ := alter_self _ _ _ _ _ hes'
  simp only [Except.ok.injEq] at hr
  subst hr
  refine ⟨{ fs with root := es' }, ?_, rfl, ?_⟩
  · rw [removeAll_plain fs p hp, hres, hes']
  · rw [lookup_eq_walk _ p hne]
    simp only
    rw [hres]
    exact hw

theorem stat_snd (fs : FS) (p : Str) : (stat fs p).2 = none := rfl

theorem osStat_of_lookup (fs : FS) (p : Str) (n : Node) (h : lookup fs p = .ok n) :
    osStat fs p = .ok { name := lastSeg p, mode := n.mode } := by
  unfold osStat; rw [h]; rfl

theorem osStat_of_lookup_error (fs : FS) (p : Str) (e : Errno) (h : lookup fs p = .error e) :
    osStat fs p = .error e := by
  unfold osStat; rw [h]

/-- What `stat` finds when the path exists. -/
theorem stat_of_lookup (fs : FS) (p : Str) (n : Node) (h : lookup fs p = .ok n) :
    stat fs p = (some { name := lastSeg p, mode := n.mode }, none) := by
  unfold stat
  rw [osStat_of_lookup fs p n h]
  rfl

/-- What `stat` finds when the path does not exist but the path with the extension does. -/
theorem stat_of_lookup_ext (fs : FS) (p : Str) (n : Node) (h : lookup fs p = .error .ENOENT)
    (h2 : lookup fs (p ++ jsonExt) = .ok n) :
    stat fs p = (some { name := lastSeg (p ++ jsonExt), mode := n.mode }, none) := by
  unfold stat
  rw [osStat_of_lookup_error fs p _ h, osStat_of_lookup fs _ n h2]
  rfl

/-- The result and the filesystem of a `Delete` with valid identifiers are those of its
locked part. -/
theorem Delete_valid (d : Driver) (w : World) (c r : Str) (hc : c ≠ []) (hr : r ≠ []) :
    (d.Delete w c r).ret = (deleteLocked d w.fs (Join [c, r])).1 ∧
    (d.Delete w c r).world.fs = (deleteLocked d w.fs (Join [c, r])).2 ∧
    (d.Delete w c r).drv = (d.getOrCreateMutex w c).2.1 := by
  have e := deleteLocked_congr d (d.getOrCreateMutex w c).2.1 w.fs (Join [c, r])
    (getOrCreateMutex_dir d w c)
  have f := getOrCreateMutex_fs d w c
  unfold Driver.Delete
  rw [if_neg hc, if_neg hr]
  simp only [World.lock, World.unlock]
  rw [f, e]
  refine ⟨?_, ?_, ?_⟩ <;> first | rfl | trivial

theorem Delete_drv_dir (d : Driver) (w : World) (c r : Str) : (d.Delete w c r).drv.dir = d.dir := by
  unfold Driver.Delete
  split
  · rfl
  · split
    · rfl
    · exact getOrCreateMutex_dir d w c

/-- The locked part of `Delete` when the probe finds a regular file: the path with the
extension is removed. -/
theorem deleteLocked_regular (d : Driver) (fs : FS) (p : Str) (fi : FileInfo)
    (h : stat fs (Join [d.dir, p]) = (some fi, none)) (h1 : fi.mode.isDir = false)
    (h2 : fi.mode.isRegular = true) :
    deleteLocked d fs p =
      match removeAll fs (Join [d.dir, p] ++ jsonExt) with
      | (some err, fs) => (.error (.os err), fs)
      | (none, fs) => (.ok (), fs) := by
  unfold deleteLocked
  simp only [h, h1, h2, Bool.false_eq_true, if_false, if_true]

theorem normStk_true_plain (S : List Str) (h : NormStk true S) : ∀ x ∈ S, Plain x := by
  induction S with
  | nil => intro x hx; simp at hx
  | cons t rest ih =>
    intro x hx
    simp only [List.mem_cons] at hx
    rcases hx with hx | hx
    · subst hx
      rcases h.1 with hp | ⟨_, hf, _⟩
      · exact hp
      · cases hf
    · exact ih h.2 x hx

theorem normStk_resolveStart (cwd : List Str) (p : Str) :
    NormStk true (if isRooted p then [] else cwd.foldl (cleanStep true) []) := by
  split
  · trivial
  · exact normStk_foldl true cwd [] trivial

/-- A path whose final element does not name an entry denotes the location of its directory
part or the parent of that location. -/
theorem resolve_of_not_plain_last (cwd : List Str) (p : Str) (h : ¬ Plain (lastSeg p)) :
    resolve cwd p = resolveDir cwd p ∨ resolve cwd p = (resolveDir cwd p).dropLast := by
  have hK := normStk_foldl true (initSegs p) _ (normStk_resolveStart cwd p)
  unfold resolve resolveDir
  rw [splitSlash_eq_init_last p, List.foldl_append]
  simp only [List.foldl_cons, List.foldl_nil]
  generalize (initSegs p).foldl (cleanStep true)
    (if isRooted p then [] else cwd.foldl (cleanStep true) []) = K at hK
  rcases plain_cases (lastSeg p) with hs | hs | hs | hs
  · rw [hs, cleanStep_nil]; exact Or.inl rfl
  · rw [hs, cleanStep_dot]; exact Or.inl rfl
  · rw [hs]
    cases K with
    | nil => rw [cleanStep_dotdot_nil]; exact Or.inl rfl
    | cons t rest =>
      have ht : t ≠ dotdot := fun e =>
        not_plain_dotdot (e ▸ normStk_true_plain _ hK t (by simp))
      rw [cleanStep_dotdot_cons, if_neg ht]
      right
      simp [List.reverse_cons, List.dropLast_concat]
  · exact absurd hs h

theorem walk_dropLast (es : Entries) (P : List Str) (E : Entries) (h : walk es P = .ok (.dir E)) :
    ∃ E', walk es P.dropLast = .ok (.dir E') := by
  rcases List.eq_nil_or_concat P with hP | ⟨P', t, hP⟩
  · subst hP; exact ⟨E, h⟩
  · subst hP
    rw [List.concat_eq_append] at h ⊢
    obtain ⟨E', hE', _⟩ := walk_snoc_ok _ _ _ _ h
    rw [List.dropLast_concat]
    exact ⟨E', hE'⟩

theorem joinBase_append_ext (dir c r : Str) :
    joinBase dir c ++ '/' :: (r ++ jsonExt) = (joinBase dir c ++ '/' :: r) ++ jsonExt := by
  simp

/-- After a successful write of a resource whose final element does not name an entry, the
record path of the resource is a directory: it holds, directly or further down, the file
written. -/
theorem record_dir_of_not_plain {V : Type} (codec : Codec V) (io : IOFaults) (d : Driver)
    (fs fs' : FS) (c r : Str) (v : V) (hc : c ≠ []) (hr : ¬ Plain (lastSeg r))
    (h : writeLocked codec io d fs c r v = (.ok (), fs')) :
    ∃ E, lookup fs' (Join [d.dir, c, r]) = .ok (.dir E) := by
  obtain ⟨_, _, _, _, _, _, hw, hcwd⟩ := writeLocked_ok codec io d fs fs' c r v hc h
  obtain ⟨hf, _, _⟩ := resolve_final_temp d fs.cwd c r hc
  have hsne : joinBase d.dir c ++ '/' :: r ≠ [] := by simp
  have hls : lastSeg (joinBase d.dir c ++ '/' :: r) = lastSeg r := lastSeg_append_slash _ _
  have hP : resolveDir fs.cwd (joinBase d.dir c ++ '/' :: r)
      = resolveDir fs.cwd (finalPath d c r) := by
    have e1 : resolve fs.cwd (finalPath d c r)
        = resolveDir fs.cwd (joinBase d.dir c ++ '/' :: r) ++ [lastSeg r ++ jsonExt] := by
      rw [finalPath_eq d c r hc, resolve_Clean, joinBase_append_ext,
        resolve_append fs.cwd _ jsonExt hsne not_mem_jsonExt (plain_append_jsonExt _), hls]
    rw [hf] at e1
    exact (List.append_inj' e1 rfl).1.symm
  rw [Join_dir_collection_resource d.dir c r hc, lookup_eq_walk _ _ (Clean_ne_nil _), hcwd,
    resolve_Clean]
  rcases resolve_of_not_plain_last fs.cwd (joinBase d.dir c ++ '/' :: r) (by rw [hls]; exact hr)
    with e | e
  · rw [e, hP]; exact ⟨_, hw⟩
  · rw [e, hP]; exact walk_dropLast _ _ _ hw

/-- C5, counterexamples.  First, where a directory `db/users/alice` exists: the write of
`users/alice` succeeds, `Delete` succeeds by removing the directory, and the record is still
there and is read.  Second, where a special file `db/users/alice` exists: the write succeeds,
`Delete` finds an object that is neither a directory nor a regular file and returns success
without removing anything, and the record is still read.  Third, with the collection `/` and
the resource `../x`: the write succeeds (it stores `x.json` beside `db`) and `Delete`, which
probes `db/x`, fails. -/
theorem write_delete_read_counter :
    ((sampleDriver.Write boolCodec IOFaults.none sampleWorldDir (str "users") (str "alice")
        true).ret = .ok () ∧
      ((sampleDriver.Write boolCodec IOFaults.none sampleWorldDir (str "users") (str "alice")
        true).drv.Delete (sampleDriver.Write boolCodec IOFaults.none sampleWorldDir (str "users")
          (str "alice") true).world (str "users") (str "alice")).ret = .ok () ∧
      (sampleDriver.Read boolCodec
        ((sampleDriver.Write boolCodec IOFaults.none sampleWorldDir (str "users") (str "alice")
          true).drv.Delete (sampleDriver.Write boolCodec IOFaults.none sampleWorldDir
            (str "users") (str "alice") true).world (str "users") (str "alice")).world
        (str "users") (str "alice")).ret = .ok true) ∧
    ((sampleDriver.Write boolCodec IOFaults.none sampleWorldSpecial (str "users") (str "alice")
        true).ret = .ok () ∧
      ((sampleDriver.Write boolCodec IOFaults.none sampleWorldSpecial (str "users") (str "alice")
        true).drv.Delete (sampleDriver.Write boolCodec IOFaults.none sampleWorldSpecial
          (str "users") (str "alice") true).world (str "users") (str "alice")).ret = .ok () ∧
      (sampleDriver.Read boolCodec
        ((sampleDriver.Write boolCodec IOFaults.none sampleWorldSpecial (str "users")
          (str "alice") true).drv.Delete (sampleDriver.Write boolCodec IOFaults.none
            sampleWorldSpecial (str "users") (str "alice") true).world (str "users")
            (str "alice")).world
        (str "users") (str "alice")).ret = .ok true) ∧
    ((sampleDriver.Write boolCodec IOFaults.none sampleWorld (str "/") (str "../x") true).ret
        = .ok () ∧
      ((sampleDriver.Write boolCodec IOFaults.none sampleWorld (str "/") (str "../x")
        true).drv.Delete (sampleDriver.Write boolCodec IOFaults.none sampleWorld (str "/")
          (str "../x") true).world (str "/") (str "../x")).ret
        = .error (.errorf "Unable to find file or directory")) := by
  refine ⟨⟨?_, ?_, ?_⟩, ⟨?_, ?_, ?_⟩, ?_, ?_⟩ <;> rfl

/-- C5, amended: when the path `Delete` probes, `Join(root, Join(c, r))`, is the record path
`Join(root, c, r)` and, after a successful `Write(c, r, v)`, whatever exists at the record
path is a regular file, the `Delete(c, r)` that follows succeeds, the record file no longer
exists, and a `Read(c, r)` after it fails with the error of a file that does not exist. -/
theorem write_delete_read {V : Type} (codec : Codec V) (io : IOFaults) (d : Driver) (w : World)
    (c r : Str) (v : V) (hj : Join [d.dir, Join [c, r]] = Join [d.dir, c, r])
    (hw : (d.Write codec io w c r v).ret = .ok ())
    (hreg : ∀ n, lookup (d.Write codec io w c r v).world.fs (Join [d.dir, c, r]) = .ok n →
      n.mode.isRegular = true) :
    ((d.Write codec io w c r v).drv.Delete (d.Write codec io w c r v).world c r).ret = .ok () ∧
    lookup ((d.Write codec io w c r v).drv.Delete (d.Write codec io w c r v).world c r).world.fs
      (finalPath d c r) = .error .ENOENT ∧
    (((d.Write codec io w c r v).drv.Delete (d.Write codec io w c r v).world c r).drv.Read codec
      ((d.Write codec io w c r v).drv.Delete (d.Write codec io w c r v).world c r).world c r).ret
      = .error (.os .ENOENT) := by
  obtain ⟨hc, hrn⟩ := Write_ok_valid codec io d w c r v hw
  obtain ⟨h1, h2, _⟩ := Write_valid codec io d w c r v hc hrn
  have hdir := Write_drv_dir codec io d w c r v
  rw [h1] at hw
  have hwl : writeLocked codec io d w.fs c r v = (.ok (), (d.Write codec io w c r v).world.fs) := by
    rw [h2, ← hw]
  by_cases hr : Plain (lastSeg r)
  · obtain ⟨b, _, hl, _⟩ := writeLocked_ok_lookup codec io d w.fs _ c r v hc hwl
    have hfin := finalPath_eq_record d c r hc hr
    rw [hfin] at hl ⊢
    generalize (d.Write codec io w c r v).world = w1 at hl hreg ⊢
    generalize (d.Write codec io w c r v).drv = d1 at hdir ⊢
    have hplR : Plain (lastSeg (Join [d.dir, c, r])) := by
      have hls : lastSeg (joinBase d.dir c ++ '/' :: r) = lastSeg r := lastSeg_append_slash _ _
      rw [Join_dir_collection_resource d.dir c r hc, lastSeg_Clean _ (hls ▸ hr), hls]
      exact hr
    have hRne := ne_nil_of_plain_lastSeg _ hplR
    have hplF : Plain (lastSeg (Join [d.dir, c, r] ++ jsonExt)) := plain_lastSeg_jsonExt _
    obtain ⟨e1, e2, _⟩ := Delete_valid d1 w1 c r hc hrn
    have hdd := Delete_drv_dir d1 w1 c r
    rw [deleteLocked_congr d d1 _ _ hdir] at e1 e2
    -- the probe finds a regular file
    have hprobe : ∃ fi, stat w1.fs (Join [d.dir, Join [c, r]]) = (some fi, none) ∧
        fi.mode.isDir = false ∧ fi.mode.isRegular = true := by
      rw [hj]
      cases hR : lookup w1.fs (Join [d.dir, c, r]) with
      | ok n =>
        have hn := hreg n hR
        cases n with
        | dir E => cases hn
        | special => cases hn
        | file data => exact ⟨_, stat_of_lookup _ _ _ hR, rfl, rfl⟩
      | error e =>
        have he : e = .ENOENT := by
          have hl' := hl
          rw [lookup_eq_walk _ _ (by simp [jsonExt]),
            resolve_append _ _ jsonExt hRne not_mem_jsonExt (plain_append_jsonExt _)] at hl'
          rw [lookup_eq_walk _ _ hRne, resolve_of_plain_last _ _ hplR] at hR
          rcases walk_sibling_cases _ _ _ (lastSeg (Join [d.dir, c, r])) _ hl' with ⟨m, hm⟩ | hm
          · rw [hm] at hR; cases hR
          · rw [hm] at hR
            simp only [Except.error.injEq] at hR
            exact hR.symm
        subst he
        exact ⟨_, stat_of_lookup_ext _ _ _ hR hl, rfl, rfl⟩
    obtain ⟨fi, hst, hfd, hfr⟩ := hprobe
    obtain ⟨fs2, hrm, _, hgone⟩ := removeAll_exists w1.fs _ _ hplF hl
    have hdl := deleteLocked_regular d w1.fs (Join [c, r]) fi hst hfd hfr
    rw [hj, hrm] at hdl
    simp only at hdl
    rw [hdl] at e1 e2
    simp only at e1 e2
    refine ⟨e1, ?_, ?_⟩
    · rw [e2]; exact hgone
    · rw [Read_valid codec _ _ c r hc hrn, hdd, hdir, e2,
        readFile_of_lookup_error _ _ _ hgone]
  · obtain ⟨E, hE⟩ := record_dir_of_not_plain codec io d w.fs _ c r v hc hr hwl
    exact absurd (hreg _ hE) (by simp [Node.mode])

/-- C5, amended, at a concrete input: `true` written as `users/alice`, deleted, read. -/
theorem write_delete_read_witness :
    Join [sampleDriver.dir, Join [str "users", str "alice"]]
      = Join [sampleDriver.dir, str "users", str "alice"] ∧
    (sampleDriver.Write boolCodec IOFaults.none sampleWorld (str "users") (str "alice") true).ret
      = .ok () ∧
    (∀ n, lookup (sampleDriver.Write boolCodec IOFaults.none sampleWorld (str "users")
      (str "alice") true).world.fs (Join [sampleDriver.dir, str "users", str "alice"])
        = .ok n → n.mode.isRegular = true) ∧
    ((sampleDriver.Write boolCodec IOFaults.none sampleWorld (str "users") (str "alice")
      true).drv.Delete (sampleDriver.Write boolCodec IOFaults.none sampleWorld (str "users")
        (str "alice") true).world (str "users") (str "alice")).ret = .ok () ∧
    (Driver.Read boolCodec
      ((sampleDriver.Write boolCodec IOFaults.none sampleWorld (str "users") (str "alice")
        true).drv.Delete (sampleDriver.Write boolCodec IOFaults.none sampleWorld (str "users")
          (str "alice") true).world (str "users") (str "alice")).drv
      ((sampleDriver.Write boolCodec IOFaults.none sampleWorld (str "users") (str "alice")
        true).drv.Delete (sampleDriver.Write boolCodec IOFaults.none sampleWorld (str "users")
          (str "alice") true).world (str "users") (str "alice")).world
      (str "users") (str "alice")).ret = .error (.os .ENOENT) :=
  have hreg : ∀ n, lookup (sampleDriver.Write boolCodec IOFaults.none sampleWorld (str "users")
      (str "alice") true).world.fs (Join [sampleDriver.dir, str "users", str "alice"])
        = .ok n → n.mode.isRegular = true := fun n h => by
    have e : lookup (sampleDriver.Write boolCodec IOFaults.none sampleWorld (str "users")
      (str "alice") true).world.fs (Join [sampleDriver.dir, str "users", str "alice"])
        = .error .ENOENT := rfl
    rw [e] at h; cases h
  ⟨rfl, rfl, hreg,
    (write_delete_read boolCodec IOFaults.none sampleDriver sampleWorld (str "users")
      (str "alice") true rfl rfl hreg).1,
    (write_delete_read boolCodec IOFaults.none sampleDriver sampleWorld (str "users")
      (str "alice") true rfl rfl hreg).2.2⟩

/-! ## Claims on `Read` and on `ReadAll` of a missing collection -/

end GoDatabase
